import Mathlib

/-!
Verification of the schedule parsing / recurrence engine of the enjoyyoga
repository (`backend/app/services/schedule_parser.py`), of the registration
capacity logic (`backend/app/services/registration_service.py`), and of the
schedule-format input validation (`backend/app/schemas/yoga_class.py`).

The Python code is shallowly embedded:

* strings are Lean `String` / `List Char` (ASCII behaviour of `str.strip`,
  `str.lower`, `\s`, `\d`, `[a-z]` is modelled; the repository only feeds
  ASCII schedule strings through these paths);
* `datetime.date` is a `(year, month, day)` triple in the proleptic Gregorian
  calendar (`PyDate`); Python further restricts years to 1..9999, which
  theorems carry as explicit hypotheses where needed;
* `datetime.time` values are `(hour, minute)` pairs;
* `date.today()` is an impure input of the Python code and is made an explicit
  `today : PyDate` parameter of the embedded functions that call it;
* Python code that can raise is embedded with `Option` (`none` = an exception
  escapes);
* the three `re.search` patterns of `parse_schedule_string`, the big
  `re.match` of `normalize_schedule`, and `CANONICAL_RE` are embedded as
  hand-rolled matchers on `List Char` that follow Python's leftmost /
  greedy / lazy backtracking semantics for these particular patterns.  At the
  few places where a maximal-munch step replaces backtracking, the adjacent
  character classes are disjoint, so the two are equivalent; each such place
  is commented.
-/

namespace EnjoyYoga

/-! ## Characters and Python string primitives -/

/-- Python `\s` / `str.strip` whitespace (ASCII part). -/
def isWs (c : Char) : Bool :=
  c = ' ' || c = '\t' || c = '\n' || c = '\r' || c = '\x0b' || c = '\x0c'

/-- Python `\d` (ASCII part), i.e. code points 48-57. -/
def isAsciiDigit (c : Char) : Bool := 48 ≤ c.toNat && c.toNat ≤ 57

/-- `[a-z]` on an already lowercased string (code points 97-122). -/
def isAsciiLower (c : Char) : Bool := 97 ≤ c.toNat && c.toNat ≤ 122

/-- `(?i)[a-z]` (code points 65-90 and 97-122). -/
def isAsciiAlpha (c : Char) : Bool :=
  (97 ≤ c.toNat && c.toNat ≤ 122) || (65 ≤ c.toNat && c.toNat ≤ 90)

def dropWs (cs : List Char) : List Char := cs.dropWhile isWs

/-- Python `str.strip()`. -/
def pyStrip (cs : List Char) : List Char :=
  ((cs.dropWhile isWs).reverse.dropWhile isWs).reverse

/-- Python `str.lower()` (ASCII behaviour, via `Char.toLower`). -/
def lowerStr (cs : List Char) : List Char := cs.map Char.toLower

/-! ## Decimal rendering, mirroring Python `str(n)` / format specifiers -/

def digitChar : Nat → Char
  | 0 => '0' | 1 => '1' | 2 => '2' | 3 => '3' | 4 => '4'
  | 5 => '5' | 6 => '6' | 7 => '7' | 8 => '8' | _ => '9'

/-- Numeric value of an ASCII digit character (Python `int` on one digit). -/
def digitVal (c : Char) : Nat := c.toNat - 48

/-- Structural helper for `renderNat`; `fuel ≥ n` always suffices because
`n / 10 < n` for `n ≥ 10`. -/
def renderNatAux : Nat → Nat → List Char
  | 0, n => [digitChar (n % 10)]
  | fuel + 1, n =>
    if n < 10 then [digitChar n]
    else renderNatAux fuel (n / 10) ++ [digitChar (n % 10)]

/-- Decimal rendering of a natural number, as Python `str(n)` / `f"{n}"`. -/
def renderNat (n : Nat) : List Char := renderNatAux n n

/-- Python `f"{n:02d}"`. -/
def pad2 (n : Nat) : List Char :=
  if n < 10 then '0' :: renderNat n else renderNat n

/-- Python `f"{n:04d}"`. -/
def pad4 (n : Nat) : List Char :=
  if n < 10 then '0' :: '0' :: '0' :: renderNat n
  else if n < 100 then '0' :: '0' :: renderNat n
  else if n < 1000 then '0' :: renderNat n
  else renderNat n

/-! ## Python `datetime.date` / `datetime.time` -/

/-- A Python `datetime.date`: a (year, month, day) triple, proleptic Gregorian.
Python additionally enforces `1 <= year <= 9999` (`date.min` / `date.max`);
the model keeps the year unbounded and theorems assume the Python range via
`ValidDate` / explicit year bounds where the behaviour depends on it. -/
structure PyDate where
  year : Nat
  month : Nat
  day : Nat
deriving DecidableEq, Repr

def isLeap (y : Nat) : Bool := (y % 4 = 0 && y % 100 ≠ 0) || y % 400 = 0

def daysInMonth (y m : Nat) : Nat :=
  if m = 2 then (if isLeap y then 29 else 28)
  else if m = 4 || m = 6 || m = 9 || m = 11 then 30
  else 31

/-- Days in months `1..m-1` of year `y`. -/
def daysBeforeMonth (y m : Nat) : Nat :=
  (List.range (m - 1)).foldl (fun acc i => acc + daysInMonth y (i + 1)) 0

/-- Python `date.toordinal()`: day number with 0001-01-01 as day 1. -/
def toordinal (d : PyDate) : Nat :=
  let y := d.year - 1
  365 * y + y / 4 - y / 100 + y / 400 + daysBeforeMonth d.year d.month + d.day

/-- Python `date.weekday()`: Monday = 0 .. Sunday = 6
(0001-01-01, ordinal 1, is a Monday). -/
def weekdayNum (d : PyDate) : Nat := (toordinal d + 6) % 7

/-- Python `date.__lt__` (chronological, equivalently lexicographic). -/
def dateLt (a b : PyDate) : Bool :=
  a.year < b.year ||
    (a.year = b.year &&
      (a.month < b.month || (a.month = b.month && a.day < b.day)))

/-- Python `date.__le__`. -/
def dateLe (a b : PyDate) : Bool := dateLt a b || a = b

/-- `date.max` (9999-12-31), the upper bound of Python's calendar;
`date.max + timedelta(days=1)` raises `OverflowError`. -/
def dateMax : PyDate := ⟨9999, 12, 31⟩

/-- Python `date + timedelta(days=1)` on an in-range date.  The sole call
site (the enumerator loop) models the `OverflowError` explicitly by testing
`dateMax` before stepping, so this successor is never consulted at
`date.max`. -/
def nextDay (d : PyDate) : PyDate :=
  if d.day < daysInMonth d.year d.month then ⟨d.year, d.month, d.day + 1⟩
  else if d.month < 12 then ⟨d.year, d.month + 1, 1⟩
  else ⟨d.year + 1, 1, 1⟩

/-- The invariant every constructed Python `date` object satisfies
(minus the year-9999 upper bound, tracked separately). -/
def ValidDate (d : PyDate) : Prop :=
  1 ≤ d.year ∧ 1 ≤ d.month ∧ d.month ≤ 12 ∧ 1 ≤ d.day ∧ d.day ≤ daysInMonth d.year d.month

instance (d : PyDate) : Decidable (ValidDate d) := by
  unfold ValidDate; infer_instance

/-- Python `date.isoformat()`: `f"{y:04d}-{m:02d}-{d:02d}"`. -/
def isoDate (d : PyDate) : List Char :=
  pad4 d.year ++ '-' :: (pad2 d.month ++ '-' :: pad2 d.day)

/-- Python `date.fromisoformat` on the dashed `YYYY-MM-DD` form
(`none` = `ValueError`). -/
def parseIsoDate (cs : List Char) : Option PyDate :=
  match cs with
  | [y1, y2, y3, y4, s1, m1, m2, s2, d1, d2] =>
    if s1 = '-' && s2 = '-' &&
        ([y1, y2, y3, y4, m1, m2, d1, d2].all isAsciiDigit) then
      let y := 1000 * digitVal y1 + 100 * digitVal y2 + 10 * digitVal y3 + digitVal y4
      let m := 10 * digitVal m1 + digitVal m2
      let d := 10 * digitVal d1 + digitVal d2
      if 1 ≤ y && 1 ≤ m && m ≤ 12 && 1 ≤ d && d ≤ daysInMonth y m then
        some ⟨y, m, d⟩
      else none
    else none
  | _ => none

/-- Python `time.fromisoformat` on the `HH:MM` form used by this code base
(`none` = `ValueError`; hour 0-23 and minute 0-59 are validated). -/
def parseIsoTime (cs : List Char) : Option (Nat × Nat) :=
  match cs with
  | [a, b, s, c, d] =>
    if s = ':' && ([a, b, c, d].all isAsciiDigit) then
      let h := 10 * digitVal a + digitVal b
      let m := 10 * digitVal c + digitVal d
      if h ≤ 23 && m ≤ 59 then some (h, m) else none
    else none
  | _ => none

/-! ## Day-name tables (`ScheduleParserService.DAYS_MAP` and the
normalizer's `day_name_map`), in Python dict insertion order. -/

def DAYS_MAP : List (List Char × Nat) :=
  [("monday".data, 0), ("mon".data, 0),
   ("tuesday".data, 1), ("tue".data, 1), ("tues".data, 1),
   ("wednesday".data, 2), ("wed".data, 2),
   ("thursday".data, 3), ("thu".data, 3), ("thurs".data, 3),
   ("friday".data, 4), ("fri".data, 4),
   ("saturday".data, 5), ("sat".data, 5),
   ("sunday".data, 6), ("sun".data, 6)]

def fullDayNames : List (List Char) :=
  ["monday".data, "tuesday".data, "wednesday".data, "thursday".data,
   "friday".data, "saturday".data, "sunday".data]

/-- `ScheduleParserService._get_day_name_from_number`. -/
def dayNameFromNumber (n : Nat) : List Char :=
  if n ≤ 6 then fullDayNames.getD n "monday".data else "monday".data

/-- The normalizer's local `day_name_map` (token → 3-letter abbreviation). -/
def day_name_map : List (List Char × List Char) :=
  [("monday".data, "Mon".data), ("mon".data, "Mon".data),
   ("tuesday".data, "Tue".data), ("tue".data, "Tue".data), ("tues".data, "Tue".data),
   ("wednesday".data, "Wed".data), ("wed".data, "Wed".data),
   ("thursday".data, "Thu".data), ("thu".data, "Thu".data), ("thurs".data, "Thu".data),
   ("friday".data, "Fri".data), ("fri".data, "Fri".data),
   ("saturday".data, "Sat".data), ("sat".data, "Sat".data),
   ("sunday".data, "Sun".data), ("sun".data, "Sun".data)]

/-- The seven 3-letter day abbreviations (`DAY_ABBREVS`). -/
def dayAbbrevs : List (List Char) :=
  ["Mon".data, "Tue".data, "Wed".data, "Thu".data, "Fri".data, "Sat".data, "Sun".data]

/-! ## `normalize_schedule` (staticmethod, lines 32-130)

The method anchors (`re.match`)

```
(?i)([a-z/,\s]+?)\s+(\d{1,2}:\d{2})\s*(?:[APap][Mm])?
    (?:\s*-\s*\d{1,2}:\d{2}(?:\s*[APap][Mm])?)?\s*([APap][Mm])?\s*$
```

Only groups 1 (`days_raw`) and 2 (`time_raw` = the two numbers) are consumed
by the Python code; the embedded matcher returns exactly those.  The lazy
group 1 is realised by trying the shortest prefix first (`normGo`); the
`\s+` / digit runs use maximal munch, legitimate because each following atom
starts with a character outside the consumed class. -/

/-- Two leading characters forming `[APap][Mm]`. -/
def ampmPre : List Char → Bool
  | a :: m :: _ =>
    (a = 'a' || a = 'A' || a = 'p' || a = 'P') && (m = 'm' || m = 'M')
  | _ => false

/-- `\s*([APap][Mm])?\s*$` — the very end of the normalizer regex. -/
def endPart (r : List Char) : Bool :=
  let r1 := dropWs r
  (ampmPre r1 && (dropWs (r1.drop 2)).isEmpty) || r1.isEmpty

/-- `(?:\s*[APap][Mm])?` followed by `endPart` (tail of the range group). -/
def afterTimeR (r : List Char) : Bool :=
  (ampmPre (dropWs r) && endPart ((dropWs r).drop 2)) || endPart r

/-- `\d{1,2}:\d{2}` (the range's end time; greedy 2-digit hour tried first,
then the 1-digit backtrack) followed by `afterTimeR`. -/
def rangeTime (r : List Char) : Bool :=
  (match r with
   | a :: b :: ':' :: c :: d :: rest =>
     isAsciiDigit a && isAsciiDigit b && isAsciiDigit c && isAsciiDigit d &&
       afterTimeR rest
   | _ => false) ||
  (match r with
   | a :: ':' :: c :: d :: rest =>
     isAsciiDigit a && isAsciiDigit c && isAsciiDigit d && afterTimeR rest
   | _ => false)

/-- `(?:\s*-\s* <rangeTime>)` — the optional range group's body. -/
def tryRange (r : List Char) : Bool :=
  match dropWs r with
  | '-' :: r2 => rangeTime (dropWs r2)
  | _ => false

/-- Optional range group, then the regex tail. -/
def afterA (r : List Char) : Bool := tryRange r || endPart r

/-- `\s*(?:[APap][Mm])?(?:range)?\s*([APap][Mm])?\s*$` — everything after
group 2.  Both the taken and skipped alternative of each optional group are
tried (`||`), reproducing the regex backtracking. -/
def tailMatch (cs : List Char) : Bool :=
  (ampmPre (dropWs cs) && afterA ((dropWs cs).drop 2)) || afterA (dropWs cs)

/-- `(\d{1,2}:\d{2})` (group 2) followed by `tailMatch`; returns the two
numbers `int()` would extract from the group. -/
def timeTailMain (r : List Char) : Option (Nat × Nat) :=
  (match r with
   | a :: b :: ':' :: c :: d :: rest =>
     if isAsciiDigit a && isAsciiDigit b && isAsciiDigit c && isAsciiDigit d &&
         tailMatch rest then
       some (10 * digitVal a + digitVal b, 10 * digitVal c + digitVal d)
     else none
   | _ => none)
  <|>
  (match r with
   | a :: ':' :: c :: d :: rest =>
     if isAsciiDigit a && isAsciiDigit c && isAsciiDigit d && tailMatch rest then
       some (digitVal a, 10 * digitVal c + digitVal d)
     else none
   | _ => none)

/-- `\s+` then group 2 and the tail; the run is maximal since a digit
follows. -/
def restMatch (cs : List Char) : Option (Nat × Nat) :=
  match cs with
  | c :: _ => if isWs c then timeTailMain (dropWs cs) else none
  | [] => none

/-- `(?i)[a-z/,\s]` — the class of the lazy group 1. -/
def dayClassChar (c : Char) : Bool :=
  isAsciiAlpha c || c = '/' || c = ',' || isWs c

/-- Lazy group 1: try to finish the match after the shortest possible
non-empty prefix, extending one character at a time.  (On empty remaining
input the regex cannot match: `restMatch [] = none` and there is nothing to
extend with, so the `[]` equation returns `none` directly.) -/
def normGo : List Char → List Char → Option (List Char × Nat × Nat)
  | _, [] => none
  | acc, c :: rs =>
    match (if acc.isEmpty then none else restMatch (c :: rs)) with
    | some (h, m) => some (acc.reverse, h, m)
    | none => if dayClassChar c then normGo (c :: acc) rs else none

/-- The whole normalizer regex (`re.match`, so anchored at the start). -/
def normMatch (cs : List Char) : Option (List Char × Nat × Nat) := normGo [] cs

/-- `re.search(r'(?i)([ap]m)', text)`: the first `[ap][m]` occurrence;
`some true` when the matched text uppercases to `PM`. -/
def searchAmPm : List Char → Option Bool
  | a :: m :: rest =>
    if (a = 'a' || a = 'A' || a = 'p' || a = 'P') && (m = 'm' || m = 'M') then
      some (a = 'p' || a = 'P')
    else searchAmPm (m :: rest)
  | _ => none

def isSep (c : Char) : Bool := c = '/' || c = ','

/-- `re.split(r'[/,]+', days_raw)`: split on maximal non-empty separator
runs (a run emits one boundary). -/
def splitSepsGo : List Char → List Char → Bool → List (List Char)
  | [], cur, _ => [cur.reverse]
  | c :: rest, cur, lastSep =>
    if isSep c then
      if lastSep then splitSepsGo rest cur true
      else cur.reverse :: splitSepsGo rest [] true
    else splitSepsGo rest (c :: cur) false

def splitSeps (cs : List Char) : List (List Char) := splitSepsGo cs [] false

/-- The data `normalize_schedule` extracts before rendering: the recognised
3-letter abbreviations, the 24-hour hour, and the minute. -/
structure NormParts where
  abbrevs : List (List Char)
  hour24 : Nat
  minute : Nat
deriving DecidableEq, Repr

/-- Lines 91-99: split the day group on `[/,]+`, strip + lowercase each
token, keep those in `day_name_map` as 3-letter abbreviations. -/
def normTokens (daysRaw : List Char) : List (List Char) :=
  (splitSeps daysRaw).filterMap
    (fun t => day_name_map.lookup (lowerStr (pyStrip t)))

/-- Lines 106-116: interpret the extracted hour against the AM/PM token. -/
def normHour24 (ampm : Option Bool) (hour : Nat) : Nat :=
  match ampm with
  | some true => if hour ≠ 12 then hour + 12 else hour
  | some false => if hour = 12 then 0 else hour
  | none => hour

/-- The extraction stage of `normalize_schedule`; `none` on each of the three
early `return schedule` paths (empty input, regex failure, no recognised day
token). -/
def normCore (schedule : String) : Option NormParts :=
  if (pyStrip schedule.data).isEmpty then none
  else
    match normMatch (pyStrip schedule.data) with
    | none => none
    | some (daysRaw, hour, minute) =>
      if (normTokens daysRaw).isEmpty then none
      else
        some ⟨normTokens daysRaw,
          normHour24 (searchAmPm (pyStrip schedule.data)) hour, minute⟩

/-- The 24-hour → 12-hour display conversion (lines 118-126). -/
def renderDisplay (hour24 : Nat) : Nat × List Char :=
  if hour24 = 0 then (12, "AM".data)
  else if hour24 < 12 then (hour24, "AM".data)
  else if hour24 = 12 then (12, "PM".data)
  else (hour24 - 12, "PM".data)

def intercalateChar (sep : Char) : List (List Char) → List Char
  | [] => []
  | [x] => x
  | x :: xs => x ++ sep :: intercalateChar sep xs

/-- `f"{days_str} {display_hour}:{minute:02d} {suffix}"`. -/
def renderCanonical (p : NormParts) : List Char :=
  intercalateChar '/' p.abbrevs ++
    ' ' :: (renderNat (renderDisplay p.hour24).1 ++
      ':' :: (pad2 p.minute ++ ' ' :: (renderDisplay p.hour24).2))

/-- `ScheduleParserService.normalize_schedule`. -/
def normalize_schedule (schedule : String) : String :=
  match normCore schedule with
  | none => schedule
  | some p => ⟨renderCanonical p⟩

/-! ## `parse_schedule_string` (lines 135-231)

Three `re.search` patterns tried in order on the stripped, lowercased input:

```
0: ([a-z/]+)\s+(\d{1,2}):(\d{2})\s*-\s*(\d{1,2}):(\d{2})
1: ([a-z/]+)\s+(\d{1,2}):(\d{2})\s*(am|pm)
2: ([a-z/]+)\s+(\d{1,2}):(\d{2})\s*$
```

`re.search` = leftmost match; at each candidate position the `[a-z/]+` and
`\s+` runs are maximal (the following atom is outside the class), and the
`\d{1,2}` hour group is greedy with a 1-digit backtrack. -/

/-- `[a-z/]` on the lowercased string. -/
def dazClass (c : Char) : Bool := isAsciiLower c || c = '/'

/-- Pattern 0's end time `(\d{1,2}):(\d{2})` with no further constraint. -/
def p0EndTime (r : List Char) : Option (Nat × Nat) :=
  (match r with
   | a :: b :: ':' :: c :: d :: _ =>
     if isAsciiDigit a && isAsciiDigit b && isAsciiDigit c && isAsciiDigit d then
       some (10 * digitVal a + digitVal b, 10 * digitVal c + digitVal d)
     else none
   | _ => none)
  <|>
  (match r with
   | a :: ':' :: c :: d :: _ =>
     if isAsciiDigit a && isAsciiDigit c && isAsciiDigit d then
       some (digitVal a, 10 * digitVal c + digitVal d)
     else none
   | _ => none)

/-- Pattern 0 after the start time: `\s*-\s*` then the end time. -/
def p0AfterStart (r : List Char) : Option (Nat × Nat) :=
  match dropWs r with
  | '-' :: r2 => p0EndTime (dropWs r2)
  | _ => none

/-- Pattern 0's `(\d{1,2}):(\d{2})` start time plus continuation. -/
def p0TimePart (r : List Char) : Option ((Nat × Nat) × (Nat × Nat)) :=
  (match r with
   | a :: b :: ':' :: c :: d :: rest =>
     if isAsciiDigit a && isAsciiDigit b && isAsciiDigit c && isAsciiDigit d then
       (p0AfterStart rest).map
         (fun e => ((10 * digitVal a + digitVal b, 10 * digitVal c + digitVal d), e))
     else none
   | _ => none)
  <|>
  (match r with
   | a :: ':' :: c :: d :: rest =>
     if isAsciiDigit a && isAsciiDigit c && isAsciiDigit d then
       (p0AfterStart rest).map
         (fun e => ((digitVal a, 10 * digitVal c + digitVal d), e))
     else none
   | _ => none)

/-- Pattern 1's `\s*(am|pm)` continuation (the string is lowercased). -/
def p1AmPm (r : List Char) : Option Bool :=
  match dropWs r with
  | 'a' :: 'm' :: _ => some false
  | 'p' :: 'm' :: _ => some true
  | _ => none

/-- Pattern 1's time plus `am|pm`. -/
def p1TimePart (r : List Char) : Option (Nat × Nat × Bool) :=
  (match r with
   | a :: b :: ':' :: c :: d :: rest =>
     if isAsciiDigit a && isAsciiDigit b && isAsciiDigit c && isAsciiDigit d then
       (p1AmPm rest).map
         (fun pm => (10 * digitVal a + digitVal b, 10 * digitVal c + digitVal d, pm))
     else none
   | _ => none)
  <|>
  (match r with
   | a :: ':' :: c :: d :: rest =>
     if isAsciiDigit a && isAsciiDigit c && isAsciiDigit d then
       (p1AmPm rest).map (fun pm => (digitVal a, 10 * digitVal c + digitVal d, pm))
     else none
   | _ => none)

/-- Pattern 2's time plus `\s*$`. -/
def p2TimePart (r : List Char) : Option (Nat × Nat) :=
  (match r with
   | a :: b :: ':' :: c :: d :: rest =>
     if isAsciiDigit a && isAsciiDigit b && isAsciiDigit c && isAsciiDigit d &&
         (dropWs rest).isEmpty then
       some (10 * digitVal a + digitVal b, 10 * digitVal c + digitVal d)
     else none
   | _ => none)
  <|>
  (match r with
   | a :: ':' :: c :: d :: rest =>
     if isAsciiDigit a && isAsciiDigit c && isAsciiDigit d && (dropWs rest).isEmpty then
       some (digitVal a, 10 * digitVal c + digitVal d)
     else none
   | _ => none)

/-- `([a-z/]+)\s+` at the current position, handing the remainder to `k`. -/
def dayRunThen (cs : List Char) (k : List Char → Option α) :
    Option (List Char × α) :=
  let dcs := cs.takeWhile dazClass
  if dcs.isEmpty then none
  else
    match cs.dropWhile dazClass with
    | c :: _ =>
      if isWs c then (k (dropWs (cs.dropWhile dazClass))).map (fun x => (dcs, x))
      else none
    | [] => none

def p0At (cs : List Char) : Option (List Char × (Nat × Nat) × (Nat × Nat)) :=
  dayRunThen cs p0TimePart

def p1At (cs : List Char) : Option (List Char × Nat × Nat × Bool) :=
  dayRunThen cs p1TimePart

def p2At (cs : List Char) : Option (List Char × Nat × Nat) :=
  dayRunThen cs p2TimePart

/-- `re.search`: try each start position left to right. -/
def searchAt (at_ : List Char → Option α) : List Char → Option α
  | [] => none
  | c :: rest => at_ (c :: rest) <|> searchAt at_ rest

/-- `str.split('/')` (single-character split, empty pieces kept). -/
def splitSlashGo : List Char → List Char → List (List Char)
  | [], cur => [cur.reverse]
  | c :: rest, cur =>
    if c = '/' then cur.reverse :: splitSlashGo rest []
    else splitSlashGo rest (c :: cur)

def splitSlash (cs : List Char) : List (List Char) := splitSlashGo cs []

/-- Lines 196-202: split the day group on `/`, strip each token, keep those
in `DAYS_MAP`, mapped to full lowercase day names. -/
def parseDays (daysStr : List Char) : List (List Char) :=
  ((splitSlash daysStr).map pyStrip).filterMap
    (fun nm => (DAYS_MAP.lookup nm).map dayNameFromNumber)

/-- What `parse_schedule_string` decides before building the result dict. -/
inductive ParseOutcome where
  | empty : ParseOutcome
  | basic : List Char → ParseOutcome
  | weekly : List (List Char) → Nat → Nat → Int → ParseOutcome
deriving DecidableEq, Repr

/-- The stripped lowercased input (line 152: `schedule.strip().lower()`). -/
def lowered (schedule : String) : List Char := lowerStr (pyStrip schedule.data)

/-- The duration computed by pattern 0 (lines 182-186). -/
def durationOf (sh sm eh em : Nat) : Int :=
  if ((eh * 60 + em : Int) - (sh * 60 + sm : Int)) ≤ 0 then 60
  else (eh * 60 + em : Int) - (sh * 60 + sm : Int)

/-- The 12-hour → 24-hour conversion of lines 208-214. -/
def to24h (h : Nat) (pm : Bool) : Nat :=
  if pm then (if h ≠ 12 then h + 12 else h) else (if h = 12 then 0 else h)

/-- The today-independent part of `parse_schedule_string`: which record shape
is produced, with (days, hour_24, minute, duration_minutes) for the weekly
case and the lowercased stripped input for the basic fallback. -/
def parseCore (schedule : String) : ParseOutcome :=
  if (pyStrip schedule.data).isEmpty then .empty
  else
    match searchAt p0At (lowered schedule) with
    | some (daysStr, (sh, sm), (eh, em)) =>
      if (parseDays daysStr).isEmpty then .basic (lowered schedule)
      else .weekly (parseDays daysStr) sh sm (durationOf sh sm eh em)
    | none =>
      match searchAt p1At (lowered schedule) with
      | some (daysStr, h, m, pm) =>
        if (parseDays daysStr).isEmpty then .basic (lowered schedule)
        else .weekly (parseDays daysStr) (to24h h pm) m 60
      | none =>
        match searchAt p2At (lowered schedule) with
        | some (daysStr, h, m) =>
          if (parseDays daysStr).isEmpty then .basic (lowered schedule)
          else .weekly (parseDays daysStr) h m 60
        | none => .basic (lowered schedule)

/-! ## The structured recurrence record

Python uses a dict; optional keys become `Option` fields with the dict's
`get` defaults.  `type` is the `"weekly_recurring"` / `"custom"` tag. -/

structure SchedulePattern where
  days : List (List Char) := []
  time : Option (List Char) := none
  duration_minutes : Option Int := none
  timezone : Option String := none
  description : Option (List Char) := none
deriving DecidableEq, Repr

structure ScheduleDateRange where
  start_date : Option (List Char) := none
  end_date : Option (List Char) := none
deriving DecidableEq, Repr

structure Schedule where
  type : String
  original_schedule : Option (List Char) := none
  pattern : SchedulePattern := {}
  date_range : ScheduleDateRange := {}
  exceptions : List (List Char) := []
deriving DecidableEq, Repr

def defaultTimezone : String := "America/New_York"

/-- `date.today().replace(day=1)`. -/
def firstOfMonth (d : PyDate) : PyDate := ⟨d.year, d.month, 1⟩

/-- `f"{hour_24:02d}:{minute}"` — the minute group is two digit characters,
re-rendered from its value. -/
def mkTimeStr (h24 m : Nat) : List Char := pad2 h24 ++ ':' :: pad2 m

/-- `ScheduleParserService.parse_schedule_string`; `today` is the value of
`date.today()` at call time. -/
def parse_schedule_string (today : PyDate) (schedule : String) : Schedule :=
  match parseCore schedule with
  | .empty =>
    { type := "custom", original_schedule := some [],
      pattern := {}, date_range := {}, exceptions := [] }
  | .basic s =>
    { type := "custom", original_schedule := some s,
      pattern := { description := some s },
      date_range := { start_date := some (isoDate today), end_date := none },
      exceptions := [] }
  | .weekly days h24 m dur =>
    { type := "weekly_recurring",
      pattern := { days := days, time := some (mkTimeStr h24 m),
                   duration_minutes := some dur,
                   timezone := some defaultTimezone },
      date_range := { start_date := some (isoDate (firstOfMonth today)),
                      end_date := none },
      exceptions := [] }

/-! ## `validate_target_date` (lines 233-300)

Embedded with `Option Bool`: `none` means a `ValueError` escapes
(`date.fromisoformat` / `time.fromisoformat` on a malformed field).  The
`if not class_schedule` dict-falsiness test can only fire on an empty dict,
which no caller produces; the record argument is therefore the structure
itself.  Python truthiness of a string field is `≠ None` and `≠ ""`. -/

/-- Step 7, inner part: compare the target time against the parsed class
time; `none` = the `time.fromisoformat` call raised. -/
def timeWithin (tt : Nat × Nat) : Option (Nat × Nat) → Option Bool
  | none => none
  | some ct =>
    if 900 < ((tt.1 * 3600 + tt.2 * 60 : Int) -
        (ct.1 * 3600 + ct.2 * 60 : Int)).natAbs then some false
    else some true

/-- Step 7: the 15-minute (900 s) tolerance check, entered only when both a
target time and a truthy `pattern.time` are present. -/
def validateTime : Option (Nat × Nat) → Option (List Char) → Option Bool
  | some tt, some ts =>
    if ts.isEmpty then some true else timeWithin tt (parseIsoTime ts)
  | some _, none => some true
  | none, _ => some true

/-- Step 6: exception-date rejection, then the time check. -/
def validateExceptions (exceptions : List (List Char))
    (ptime : Option (List Char)) (d : PyDate) (t : Option (Nat × Nat)) :
    Option Bool :=
  if exceptions.contains (isoDate d) then some false else validateTime t ptime

/-- Step 5, after `date.fromisoformat` on `end_date`. -/
def endCheck (exceptions : List (List Char)) (ptime : Option (List Char))
    (d : PyDate) (t : Option (Nat × Nat)) : Option PyDate → Option Bool
  | none => none
  | some ed =>
    if dateLt ed d then some false else validateExceptions exceptions ptime d t

/-- Step 5: the `end_date` window (skipped when the field is falsy). -/
def validateEnd : Option (List Char) → List (List Char) →
    Option (List Char) → PyDate → Option (Nat × Nat) → Option Bool
  | some s, exceptions, ptime, d, t =>
    if s.isEmpty then validateExceptions exceptions ptime d t
    else endCheck exceptions ptime d t (parseIsoDate s)
  | none, exceptions, ptime, d, t => validateExceptions exceptions ptime d t

/-- Step 4, after `date.fromisoformat` on `start_date`. -/
def startCheck (endo : Option (List Char)) (exceptions : List (List Char))
    (ptime : Option (List Char)) (d : PyDate) (t : Option (Nat × Nat)) :
    Option PyDate → Option Bool
  | none => none
  | some sd =>
    if dateLt d sd then some false
    else validateEnd endo exceptions ptime d t

/-- Step 4: the `start_date` window (skipped when the field is falsy). -/
def validateStart : Option (List Char) → Option (List Char) →
    List (List Char) → Option (List Char) → PyDate → Option (Nat × Nat) →
    Option Bool
  | some s, endo, exceptions, ptime, d, t =>
    if s.isEmpty then validateEnd endo exceptions ptime d t
    else startCheck endo exceptions ptime d t (parseIsoDate s)
  | none, endo, exceptions, ptime, d, t =>
    validateEnd endo exceptions ptime d t

/-- `ScheduleParserService.validate_target_date`. -/
def validate_target_date (sched : Schedule) (target_date : PyDate)
    (target_time : Option (Nat × Nat)) : Option Bool :=
  if sched.type ≠ "weekly_recurring" then some true
  else if sched.pattern.days.isEmpty then some true
  else if ¬ ((sched.pattern.days.map lowerStr).contains
      (lowerStr (dayNameFromNumber (weekdayNum target_date)))) then some false
  else validateStart sched.date_range.start_date sched.date_range.end_date
    sched.exceptions sched.pattern.time target_date target_time

/-! ## `get_next_available_dates` (lines 302-386) -/

/-- One element of the returned list: `datetime.combine(date, time, tz)`.
The timestamp's clock fields are those of the combined date and time; the
zone is attached, not converted. -/
structure OccurrenceDT where
  day : PyDate
  hour : Nat
  minute : Nat
  tz : String
deriving DecidableEq, Repr

/-- The IANA zone database behind `ZoneInfo`, modelled as the finite set of
names this repository mentions; `ZoneInfo(s)` succeeds iff `s` is listed. -/
def knownTimezones : List String :=
  ["America/New_York", "UTC", "America/Chicago", "America/Los_Angeles",
   "Europe/London", "Asia/Shanghai"]

/-- `try: tz = ZoneInfo(s) except: tz = ZoneInfo(default)` (lines 373-376). -/
def resolveTz (s dflt : String) : String :=
  if knownTimezones.contains s then s else dflt

/-- Outcome of `date.fromisoformat` on a truthy `end_date` string:
an exception (`none`) or a bound. -/
def endParsedOpt : Option PyDate → Option (Option PyDate)
  | none => none
  | some ed => some (some ed)

/-- `if date_range.get("end_date"): end_date = date.fromisoformat(...)`
(lines 361-364) applied to the field value; `none` = the `ValueError`
escapes, `some none` = no bound. -/
def endFieldResolve : Option (List Char) → Option (Option PyDate)
  | some s => if s.isEmpty then some none else endParsedOpt (parseIsoDate s)
  | none => some none

def endResolved (sched : Schedule) : Option (Option PyDate) :=
  endFieldResolve sched.date_range.end_date

/-- `end_date is None or current_date <= end_date` (line 371). -/
def endOk (cur : PyDate) : Option PyDate → Bool
  | none => true
  | some ed => dateLe cur ed

/-- The scanning loop (lines 366-384): `budget` is
`max_days_to_check - days_checked`.  `none` is the `OverflowError` raised by
`current_date += timedelta(days=1)` (line 383) when an iteration runs with
`current_date = date.max`: that increment executes unconditionally at the
end of the loop body — even when the day was just emitted — and the
exception propagates, discarding everything collected so far. -/
def enumGo (validWeekdays : List Nat) (classTime : Nat × Nat) (tz : String)
    (exceptions : List (List Char)) (endDate : Option PyDate) (limit : Nat) :
    Nat → PyDate → List OccurrenceDT → Option (List OccurrenceDT)
  | 0, _, acc => some acc
  | b + 1, cur, acc =>
    if limit ≤ acc.length then some acc
    else if cur = dateMax then none
    else
      enumGo validWeekdays classTime tz exceptions endDate limit b (nextDay cur)
        (if validWeekdays.contains (weekdayNum cur) &&
            !(exceptions.contains (isoDate cur)) &&
            endOk cur endDate then
          acc ++ [⟨cur, classTime.1, classTime.2, tz⟩]
        else acc)

/-- Lines 334-343: resolve the stored day names through `DAYS_MAP`. -/
def validWeekdaysOf (sched : Schedule) : List Nat :=
  sched.pattern.days.filterMap (fun d => DAYS_MAP.lookup (lowerStr d))

/-- Lines 346-349: parse the stored time, defaulting to 09:00. -/
def classTimeOf (sched : Schedule) : Nat × Nat :=
  (parseIsoTime (sched.pattern.time.getD "09:00".data)).getD (9, 0)

/-- `ScheduleParserService.get_next_available_dates` (with `from_date`
supplied; the `None` default is `date.today()` at the call sites).  `none`
means an exception escapes: the `ValueError` from a malformed truthy
`end_date` (line 364), or the `OverflowError` from stepping past `date.max`
(line 383). -/
def get_next_available_dates (sched : Schedule) (from_date : PyDate)
    (limit : Nat) : Option (List OccurrenceDT) :=
  if sched.type ≠ "weekly_recurring" then some []
  else if sched.pattern.days.isEmpty then some []
  else if (validWeekdaysOf sched).isEmpty then some []
  else
    match endResolved sched with
    | none => none
    | some endDate =>
      enumGo (validWeekdaysOf sched) (classTimeOf sched)
        (resolveTz (sched.pattern.timezone.getD defaultTimezone)
          defaultTimezone)
        sched.exceptions endDate limit (limit * 10) from_date []

/-! ## Capacity logic (`registration_service.py`)

The bookings for one class and date are abstracted to their status strings;
the count and the accept/raise decision are byte-for-byte the conditions of
`validate_registration_capacity` (lines 157-170) and
`create_registration_with_schedule` (lines 93-108).  Prices are `NUMERIC`
columns compared with `float(p) > 0`; they are modelled as rationals. -/

def countsTowardCapacity (status : String) : Bool :=
  status = "confirmed" || status = "waitlist" || status = "pending_payment"

/-- The `COUNT(*)` with `status.in_(["confirmed","waitlist","pending_payment"])`. -/
def currentRegistrationCount (regs : List String) : Nat :=
  (regs.filter countsTowardCapacity).length

/-- `validate_registration_capacity`: `(is_available, current_count)`. -/
def validate_registration_capacity (regs : List String) (capacity : Nat) :
    Bool × Nat :=
  (currentRegistrationCount regs < capacity, currentRegistrationCount regs)

def hasPositivePrice (price price_usd : Option ℚ) : Bool :=
  (match price with | some p => decide (0 < p) | none => false) ||
  (match price_usd with | some p => decide (0 < p) | none => false)

/-- The status decision of `create_registration_with_schedule` after the
occurrence validator has accepted (lines 93-123): raise `ValueError` when the
date is full, otherwise create the row with `pending_payment` for a priced
class and `confirmed` for a free one. -/
def createRegistrationStatus (regs : List String) (capacity : Nat)
    (price price_usd : Option ℚ) : Except String String :=
  if ¬ (validate_registration_capacity regs capacity).1 then
    .error "Class is full"
  else .ok (if hasPositivePrice price price_usd then "pending_payment"
            else "confirmed")

/-- Modelled from the spec: `decideStatus` of §4.5 of the specification
("`confirmed` if `currentConfirmedCount < capacity`, else `waitlist`"; an
invalid occurrence is rejected by the caller).  The repository has no such
function — `create_registration_with_schedule` raises instead of
waitlisting — so this spec-side definition exists only to be compared with
`createRegistrationStatus`. -/
def decideStatus (isValidOccurrence : Bool) (currentConfirmedCount capacity : Nat) :
    String :=
  if ¬ isValidOccurrence then "rejected"
  else if currentConfirmedCount < capacity then "confirmed"
  else "waitlist"

/-! ## `CANONICAL_RE` (`schedule_parser.py` lines 27-30 and
`yoga_class.py` lines 13-15)

`^(Mon|Tue|Wed|Thu|Fri|Sat|Sun)(/(Mon|Tue|Wed|Thu|Fri|Sat|Sun))*
 \d{1,2}:\d{2} (AM|PM)$`, embedded as a matcher that also returns the
matched day tokens and time. -/

def matchDay3 : List Char → Option (List Char × List Char)
  | a :: b :: c :: rest =>
    if dayAbbrevs.contains [a, b, c] then some ([a, b, c], rest) else none
  | _ => none

/-- `(/(Day3))*`, greedy; the star must keep iterating while a `/` is next
because the following atom is a space. -/
def daysStar : List Char → List (List Char) → Option (List (List Char) × List Char)
  | '/' :: a :: b :: c :: rest, acc =>
    if dayAbbrevs.contains [a, b, c] then daysStar rest ([a, b, c] :: acc)
    else none
  | '/' :: _, _ => none
  | cs, acc => some (acc.reverse, cs)

/-- ` (AM|PM)$` (one space, then the meridiem, then the end). -/
def canonAmPm : List Char → Option Bool
  | ['A', 'M'] => some false
  | ['P', 'M'] => some true
  | _ => none

/-- ` \d{1,2}:\d{2} (AM|PM)$` after the day list. -/
def canonTime (r : List Char) : Option (Nat × Nat × Bool) :=
  (match r with
   | a :: b :: ':' :: c :: d :: ' ' :: rest =>
     if isAsciiDigit a && isAsciiDigit b && isAsciiDigit c && isAsciiDigit d then
       (canonAmPm rest).map
         (fun pm => (10 * digitVal a + digitVal b, 10 * digitVal c + digitVal d, pm))
     else none
   | _ => none)
  <|>
  (match r with
   | a :: ':' :: c :: d :: ' ' :: rest =>
     if isAsciiDigit a && isAsciiDigit c && isAsciiDigit d then
       (canonAmPm rest).map
         (fun pm => (digitVal a, 10 * digitVal c + digitVal d, pm))
     else none
   | _ => none)

/-- The whole `CANONICAL_RE` (`re.match` + `$` = the full string), returning
the day tokens and the time when it matches. -/
def canonicalParse (cs : List Char) :
    Option (List (List Char) × Nat × Nat × Bool) :=
  match matchDay3 cs with
  | none => none
  | some (d1, r1) =>
    match daysStar r1 [d1] with
    | none => none
    | some (toks, r2) =>
      match r2 with
      | ' ' :: r3 => (canonTime r3).map (fun x => (toks, x))
      | _ => none

/-- `bool(CANONICAL_RE.match(s))` — the input-validation layer's test
(`YogaClassCreate.validate_schedule`). -/
def canonicalReMatch (cs : List Char) : Bool := (canonicalParse cs).isSome

/-- Proof-side shorthand: the flat characters contributed by the star's
iterations, `('/' ++ d)` for each further day token `d`. -/
def slashCat : List (List Char) → List Char
  | [] => []
  | d :: ds => '/' :: d ++ slashCat ds

/-! # Helper lemmas -/

theorem digitVal_le9 {c : Char} (h : isAsciiDigit c = true) : digitVal c ≤ 9 := by
  unfold isAsciiDigit at h
  unfold digitVal
  simp only [Bool.and_eq_true, decide_eq_true_eq] at h
  omega

theorem digitChar_digit {n : Nat} (h : n ≤ 9) :
    isAsciiDigit (digitChar n) = true ∧ digitVal (digitChar n) = n := by
  interval_cases n <;> decide

theorem renderNatAux_small {fuel m : Nat} (h : m < 10) :
    renderNatAux fuel m = [digitChar m] := by
  cases fuel with
  | zero =>
    have e : m % 10 = m := by omega
    simp only [renderNatAux, e]
  | succ f =>
    simp only [renderNatAux, if_pos h]

theorem renderNatAux_step {fuel n : Nat} (h1 : 10 ≤ n) (h2 : 1 ≤ fuel) :
    renderNatAux fuel n =
      renderNatAux (fuel - 1) (n / 10) ++ [digitChar (n % 10)] := by
  cases fuel with
  | zero => omega
  | succ f =>
    simp only [renderNatAux, if_neg (show ¬ n < 10 by omega), Nat.add_sub_cancel]

theorem renderNat_lt10 {n : Nat} (h : n < 10) : renderNat n = [digitChar n] :=
  renderNatAux_small h

theorem renderNat_two {n : Nat} (h1 : 10 ≤ n) (h2 : n ≤ 99) :
    renderNat n = [digitChar (n / 10), digitChar (n % 10)] := by
  unfold renderNat
  rw [renderNatAux_step h1 (by omega), renderNatAux_small (by omega)]
  rfl

theorem pad2_eq {n : Nat} (h : n ≤ 99) :
    pad2 n = [digitChar (n / 10), digitChar (n % 10)] := by
  unfold pad2
  by_cases h10 : n < 10
  · rw [if_pos h10, renderNat_lt10 h10]
    have e1 : n / 10 = 0 := by omega
    have e2 : n % 10 = n := by omega
    rw [e1, e2]
    rfl
  · rw [if_neg h10, renderNat_two (by omega) h]

theorem renderNat_three {n : Nat} (h1 : 100 ≤ n) (h2 : n ≤ 999) :
    renderNat n = [digitChar (n / 100), digitChar (n / 10 % 10), digitChar (n % 10)] := by
  unfold renderNat
  rw [renderNatAux_step (by omega) (by omega),
    renderNatAux_step (show 10 ≤ n / 10 by omega) (by omega),
    renderNatAux_small (show n / 10 / 10 < 10 by omega)]
  have e : n / 10 / 10 = n / 100 := by omega
  rw [e]
  rfl

theorem renderNat_four {n : Nat} (h1 : 1000 ≤ n) (h2 : n ≤ 9999) :
    renderNat n = [digitChar (n / 1000), digitChar (n / 100 % 10),
      digitChar (n / 10 % 10), digitChar (n % 10)] := by
  unfold renderNat
  rw [renderNatAux_step (by omega) (by omega),
    renderNatAux_step (show 10 ≤ n / 10 by omega) (by omega),
    renderNatAux_step (show 10 ≤ n / 10 / 10 by omega) (by omega),
    renderNatAux_small (show n / 10 / 10 / 10 < 10 by omega)]
  have e1 : n / 10 / 10 / 10 = n / 1000 := by omega
  have e2 : n / 10 / 10 % 10 = n / 100 % 10 := by
    have e : n / 10 / 10 = n / 100 := by omega
    rw [e]
  rw [e1, e2]
  rfl

theorem pad4_eq {n : Nat} (h : n ≤ 9999) :
    pad4 n = [digitChar (n / 1000), digitChar (n / 100 % 10),
      digitChar (n / 10 % 10), digitChar (n % 10)] := by
  unfold pad4
  by_cases c1 : n < 10
  · rw [if_pos c1, renderNat_lt10 c1]
    have e1 : n / 1000 = 0 := by omega
    have e2 : n / 100 % 10 = 0 := by omega
    have e3 : n / 10 % 10 = 0 := by omega
    have e4 : n % 10 = n := by omega
    rw [e1, e2, e3, e4]
    rfl
  · rw [if_neg c1]
    by_cases c2 : n < 100
    · rw [if_pos c2, renderNat_two (by omega) (by omega)]
      have e1 : n / 1000 = 0 := by omega
      have e2 : n / 100 % 10 = 0 := by omega
      have e3 : n / 10 % 10 = n / 10 := by omega
      rw [e1, e2, e3]
      rfl
    · rw [if_neg c2]
      by_cases c3 : n < 1000
      · rw [if_pos c3, renderNat_three (by omega) (by omega)]
        have e1 : n / 1000 = 0 := by omega
        have e2 : n / 100 % 10 = n / 100 := by omega
        rw [e1, e2]
        rfl
      · rw [if_neg c3, renderNat_four (by omega) h]

theorem daysInMonth_pos (y m : Nat) : 1 ≤ daysInMonth y m := by
  unfold daysInMonth
  split
  · split <;> omega
  · split <;> omega

theorem daysInMonth_le31 (y m : Nat) : daysInMonth y m ≤ 31 := by
  unfold daysInMonth
  split
  · split <;> omega
  · split <;> omega

theorem firstOfMonth_valid {d : PyDate} (h : ValidDate d) :
    ValidDate (firstOfMonth d) := by
  obtain ⟨h1, h2, h3, _, _⟩ := h
  exact ⟨h1, h2, h3, le_refl 1, daysInMonth_pos d.year d.month⟩

/-- `date.fromisoformat` inverts `date.isoformat` on every Python-valid date. -/
theorem parseIsoDate_isoDate {d : PyDate} (h : ValidDate d) (h9 : d.year ≤ 9999) :
    parseIsoDate (isoDate d) = some d := by
  obtain ⟨hy, hm1, hm2, hd1, hd2⟩ := h
  have hm99 : d.month ≤ 99 := by omega
  have hd99 : d.day ≤ 99 := by
    have := daysInMonth_le31 d.year d.month
    omega
  unfold isoDate
  rw [pad4_eq h9, pad2_eq hm99, pad2_eq hd99]
  show parseIsoDate [digitChar (d.year / 1000), digitChar (d.year / 100 % 10),
    digitChar (d.year / 10 % 10), digitChar (d.year % 10), '-',
    digitChar (d.month / 10), digitChar (d.month % 10), '-',
    digitChar (d.day / 10), digitChar (d.day % 10)] = some d
  have g1 := digitChar_digit (n := d.year / 1000) (by omega)
  have g2 := digitChar_digit (n := d.year / 100 % 10) (by omega)
  have g3 := digitChar_digit (n := d.year / 10 % 10) (by omega)
  have g4 := digitChar_digit (n := d.year % 10) (by omega)
  have g5 := digitChar_digit (n := d.month / 10) (by omega)
  have g6 := digitChar_digit (n := d.month % 10) (by omega)
  have g7 := digitChar_digit (n := d.day / 10) (by omega)
  have g8 := digitChar_digit (n := d.day % 10) (by omega)
  unfold parseIsoDate
  simp only [List.all_cons, List.all_nil, g1.1, g1.2, g2.1, g2.2, g3.1, g3.2,
    g4.1, g4.2, g5.1, g5.2, g6.1, g6.2, g7.1, g7.2, g8.1, g8.2, Bool.and_true,
    Bool.true_and, if_true]
  have ey : 1000 * (d.year / 1000) + 100 * (d.year / 100 % 10) +
      10 * (d.year / 10 % 10) + d.year % 10 = d.year := by omega
  have em : 10 * (d.month / 10) + d.month % 10 = d.month := by omega
  have ed : 10 * (d.day / 10) + d.day % 10 = d.day := by omega
  simp only [ey, em, ed]
  have : (1 ≤ d.year && 1 ≤ d.month && d.month ≤ 12 && 1 ≤ d.day &&
      d.day ≤ daysInMonth d.year d.month) = true := by
    simp only [Bool.and_eq_true, decide_eq_true_eq]
    omega
  rw [this]
  rfl

theorem searchAt_imp {α : Type} {at_ : List Char → Option α} {P : α → Prop}
    (hat : ∀ t v, at_ t = some v → P v) :
    ∀ {cs : List Char} {v : α}, searchAt at_ cs = some v → P v := by
  intro cs
  induction cs with
  | nil => intro v h; simp [searchAt] at h
  | cons c rest ih =>
    intro v h
    unfold searchAt at h
    cases h1 : at_ (c :: rest) with
    | some w => rw [h1] at h; simp at h; exact h ▸ hat _ _ h1
    | none => rw [h1] at h; simp at h; exact ih h

theorem orElse_eq_some {α : Type} {a b : Option α} {v : α}
    (h : (a <|> b) = some v) : a = some v ∨ b = some v := by
  cases a <;> simp_all [Option.orElse]

theorem two_digit_le99 {a b : Char} (ha : isAsciiDigit a = true)
    (hb : isAsciiDigit b = true) : 10 * digitVal a + digitVal b ≤ 99 := by
  have := digitVal_le9 ha
  have := digitVal_le9 hb
  omega

theorem one_digit_le99 {a : Char} (ha : isAsciiDigit a = true) :
    digitVal a ≤ 99 := by
  have := digitVal_le9 ha
  omega

theorem p0TimePart_bound {r : List Char} {v : (Nat × Nat) × (Nat × Nat)}
    (h : p0TimePart r = some v) : v.1.1 ≤ 99 ∧ v.1.2 ≤ 99 := by
  unfold p0TimePart at h
  rcases orElse_eq_some h with h1 | h1
  · split at h1
    case _ =>
      split at h1
      case isTrue hdig =>
        simp only [Bool.and_eq_true] at hdig
        obtain ⟨⟨⟨ha, hb⟩, hc⟩, hd⟩ := hdig
        simp only [Option.map_eq_some'] at h1
        obtain ⟨e, _, he⟩ := h1
        subst he
        exact ⟨two_digit_le99 ha hb, two_digit_le99 hc hd⟩
      case isFalse => exact absurd h1 (by simp)
    case _ => exact absurd h1 (by simp)
  · split at h1
    case _ =>
      split at h1
      case isTrue hdig =>
        simp only [Bool.and_eq_true] at hdig
        obtain ⟨⟨ha, hc⟩, hd⟩ := hdig
        simp only [Option.map_eq_some'] at h1
        obtain ⟨e, _, he⟩ := h1
        subst he
        exact ⟨one_digit_le99 ha, two_digit_le99 hc hd⟩
      case isFalse => exact absurd h1 (by simp)
    case _ => exact absurd h1 (by simp)

theorem p1TimePart_bound {r : List Char} {v : Nat × Nat × Bool}
    (h : p1TimePart r = some v) : v.1 ≤ 99 ∧ v.2.1 ≤ 99 := by
  unfold p1TimePart at h
  rcases orElse_eq_some h with h1 | h1
  · split at h1
    case _ =>
      split at h1
      case isTrue hdig =>
        simp only [Bool.and_eq_true] at hdig
        obtain ⟨⟨⟨ha, hb⟩, hc⟩, hd⟩ := hdig
        simp only [Option.map_eq_some'] at h1
        obtain ⟨pm, _, he⟩ := h1
        subst he
        exact ⟨two_digit_le99 ha hb, two_digit_le99 hc hd⟩
      case isFalse => exact absurd h1 (by simp)
    case _ => exact absurd h1 (by simp)
  · split at h1
    case _ =>
      split at h1
      case isTrue hdig =>
        simp only [Bool.and_eq_true] at hdig
        obtain ⟨⟨ha, hc⟩, hd⟩ := hdig
        simp only [Option.map_eq_some'] at h1
        obtain ⟨pm, _, he⟩ := h1
        subst he
        exact ⟨one_digit_le99 ha, two_digit_le99 hc hd⟩
      case isFalse => exact absurd h1 (by simp)
    case _ => exact absurd h1 (by simp)

theorem p2TimePart_bound {r : List Char} {v : Nat × Nat}
    (h : p2TimePart r = some v) : v.1 ≤ 99 ∧ v.2 ≤ 99 := by
  unfold p2TimePart at h
  rcases orElse_eq_some h with h1 | h1
  · split at h1
    case _ =>
      split at h1
      case isTrue hdig =>
        simp only [Bool.and_eq_true] at hdig
        obtain ⟨⟨⟨⟨ha, hb⟩, hc⟩, hd⟩, _⟩ := hdig
        simp only [Option.some.injEq] at h1
        subst h1
        exact ⟨two_digit_le99 ha hb, two_digit_le99 hc hd⟩
      case isFalse => exact absurd h1 (by simp)
    case _ => exact absurd h1 (by simp)
  · split at h1
    case _ =>
      split at h1
      case isTrue hdig =>
        simp only [Bool.and_eq_true] at hdig
        obtain ⟨⟨⟨ha, hc⟩, hd⟩, _⟩ := hdig
        simp only [Option.some.injEq] at h1
        subst h1
        exact ⟨one_digit_le99 ha, two_digit_le99 hc hd⟩
      case isFalse => exact absurd h1 (by simp)
    case _ => exact absurd h1 (by simp)

theorem dayRunThen_imp {α : Type} {k : List Char → Option α}
    {P : α → Prop} (hk : ∀ t v, k t = some v → P v) :
    ∀ t d v, dayRunThen t k = some (d, v) → P v := by
  intro t d v h
  unfold dayRunThen at h
  by_cases he : (t.takeWhile dazClass).isEmpty
  · simp [he] at h
  · simp only [he, Bool.false_eq_true, if_false] at h
    cases hd : t.dropWhile dazClass with
    | nil => rw [hd] at h; simp at h
    | cons c rest =>
      rw [hd] at h
      by_cases hw : isWs c
      · simp only [hw, if_true] at h
        simp only [Option.map_eq_some'] at h
        obtain ⟨w, hw2, he2⟩ := h
        cases he2
        exact hk _ _ hw2
      · simp [hw] at h

theorem dayNameFromNumber_mem (n : Nat) : dayNameFromNumber n ∈ fullDayNames := by
  unfold dayNameFromNumber
  by_cases h : n ≤ 6
  · rw [if_pos h]
    interval_cases n <;> decide
  · rw [if_neg h]
    decide

theorem parseDays_mem {ds : List Char} : ∀ x ∈ parseDays ds, x ∈ fullDayNames := by
  intro x hx
  unfold parseDays at hx
  simp only [List.mem_filterMap] at hx
  obtain ⟨nm, _, hnm⟩ := hx
  simp only [Option.map_eq_some'] at hnm
  obtain ⟨num, _, he⟩ := hnm
  subst he
  exact dayNameFromNumber_mem num

theorem p0At_minute {t : List Char} {w : List Char × (Nat × Nat) × (Nat × Nat)}
    (h : p0At t = some w) : w.2.1.2 ≤ 99 := by
  obtain ⟨d, v⟩ := w
  exact dayRunThen_imp (fun t v hv => (p0TimePart_bound hv).2) t d v h

theorem p1At_minute {t : List Char} {w : List Char × Nat × Nat × Bool}
    (h : p1At t = some w) : w.2.2.1 ≤ 99 := by
  obtain ⟨d, v⟩ := w
  exact dayRunThen_imp (fun t v hv => (p1TimePart_bound hv).2) t d v h

theorem p2At_minute {t : List Char} {w : List Char × Nat × Nat}
    (h : p2At t = some w) : w.2.2 ≤ 99 := by
  obtain ⟨d, v⟩ := w
  exact dayRunThen_imp (fun t v hv => (p2TimePart_bound hv).2) t d v h

/-- Structural facts about every `weekly_recurring` outcome of the parser:
the day list is non-empty, all names come from the closed 7-name set, and
the minute value fits in two digits. -/
theorem parseCore_weekly_inv {s : String} {days : List (List Char)}
    {h24 m : Nat} {dur : Int}
    (h : parseCore s = ParseOutcome.weekly days h24 m dur) :
    days ≠ [] ∧ (∀ x ∈ days, x ∈ fullDayNames) ∧ m ≤ 99 := by
  unfold parseCore at h
  split at h
  · exact absurd h (by simp)
  · split at h
    case _ w heq =>
      -- pattern 0 matched
      split at h
      · exact absurd h (by simp)
      case isFalse hne =>
        injection h with h1 h2 h3 h4
        subst h1; subst h3
        refine ⟨by simpa using hne, parseDays_mem, ?_⟩
        exact searchAt_imp (fun t v hv => p0At_minute hv) heq
    case _ heq0 =>
      split at h
      case _ w heq =>
        -- pattern 1 matched
        split at h
        · exact absurd h (by simp)
        case isFalse hne =>
          injection h with h1 h2 h3 h4
          subst h1; subst h3
          refine ⟨by simpa using hne, parseDays_mem, ?_⟩
          exact searchAt_imp (fun t v hv => p1At_minute hv) heq
      case _ heq1 =>
        split at h
        case _ w heq =>
          -- pattern 2 matched
          split at h
          · exact absurd h (by simp)
          case isFalse hne =>
            injection h with h1 h2 h3 h4
            subst h1; subst h3
            refine ⟨by simpa using hne, parseDays_mem, ?_⟩
            exact searchAt_imp (fun t v hv => p2At_minute hv) heq
        case _ => exact absurd h (by simp)

/-- Every `basic` fallback carries the lowercased stripped input. -/
theorem parseCore_basic_inv {s : String} {b : List Char}
    (h : parseCore s = ParseOutcome.basic b) :
    b = lowerStr (pyStrip s.data) ∧ pyStrip s.data ≠ [] := by
  unfold parseCore at h
  split at h
  case isTrue => exact absurd h (by simp)
  case isFalse hne =>
    have hs : pyStrip s.data ≠ [] := by simpa [List.isEmpty_iff] using hne
    split at h
    · split at h
      · injection h with h1; exact ⟨h1.symm, hs⟩
      · exact absurd h (by simp)
    · split at h
      · split at h
        · injection h with h1; exact ⟨h1.symm, hs⟩
        · exact absurd h (by simp)
      · split at h
        · split at h
          · injection h with h1; exact ⟨h1.symm, hs⟩
          · exact absurd h (by simp)
        · injection h with h1; exact ⟨h1.symm, hs⟩

theorem parseCore_empty_inv {s : String}
    (h : parseCore s = ParseOutcome.empty) : pyStrip s.data = [] := by
  unfold parseCore at h
  split at h
  case isTrue he => simpa [List.isEmpty_iff] using he
  case isFalse =>
    split at h
    · split at h <;> exact absurd h (by simp)
    · split at h
      · split at h <;> exact absurd h (by simp)
      · split at h
        · split at h <;> exact absurd h (by simp)
        · exact absurd h (by simp)

/-! # Claim C1 — capacity gate -/

/-- Claim C1 (code bug, code evaluated at the failing input): the tally counts
exactly `confirmed`/`waitlist`/`pending_payment` and never `cancelled`, as the
claim states; but at `count = capacity` (capacity 1, one existing confirmed
booking, free class) `create_registration_with_schedule` raises
`ValueError("Class is full")` instead of creating a `waitlist` registration,
while the spec's `decideStatus` — and the repository's own tests
(`test_registration_service.py:180`, `test_registrations.py:461`) — require
status `waitlist`.  At `count = capacity - 1` a free class is `confirmed`. -/
theorem C1_capacity_gate_code_eval :
    currentRegistrationCount ["confirmed"] = 1 ∧
    currentRegistrationCount ["confirmed", "cancelled"] = 1 ∧
    currentRegistrationCount ["waitlist", "pending_payment", "cancelled"] = 2 ∧
    createRegistrationStatus ["confirmed"] 1 none none =
      Except.error "Class is full" ∧
    decideStatus true 1 1 = "waitlist" ∧
    decideStatus true 0 1 = "confirmed" ∧
    createRegistrationStatus [] 1 none none = Except.ok "confirmed" := by
  exact ⟨rfl, rfl, rfl, rfl, rfl, rfl, rfl⟩

/-! # Claim C2 — parsed-record field invariants -/

/-- Claim C2 counterexample: the input `"mon 25:61"` parses to a
`weekly_recurring` record whose `pattern.time` is `"25:61"`, which is not a
valid 24-hour clock value (`time.fromisoformat` rejects it), contradicting
the claimed invariant. -/
theorem C2_invalid_time_counterexample :
    (parse_schedule_string ⟨2026, 10, 12⟩ "mon 25:61").type =
      "weekly_recurring" ∧
    (parse_schedule_string ⟨2026, 10, 12⟩ "mon 25:61").pattern.time =
      some "25:61".data ∧
    parseIsoTime "25:61".data = none := by
  refine ⟨rfl, by decide, by decide⟩

/-- Claim C2 (amended): for every input that parses to a `weekly_recurring`
record, `pattern.days` is drawn from the closed 7-name set and `exceptions`
is empty (hence trivially all valid ISO dates); `pattern.time` always has the
syntactic shape `HH:MM` (two-digit zero-padded fields), but is a valid
24-hour clock value only when the extracted hour and minute are in range —
garbage numerals such as `"mon 25:61"` pass through unchecked. -/
theorem C2_field_invariants_amended (today : PyDate) (s : String)
    (h : (parse_schedule_string today s).type = "weekly_recurring") :
    (∀ nm ∈ (parse_schedule_string today s).pattern.days, nm ∈ fullDayNames) ∧
    (parse_schedule_string today s).exceptions = [] ∧
    ∃ h24 m, m ≤ 99 ∧
      (parse_schedule_string today s).pattern.time = some (mkTimeStr h24 m) := by
  unfold parse_schedule_string at h ⊢
  cases hp : parseCore s with
  | empty => rw [hp] at h; simp at h
  | basic b => rw [hp] at h; simp at h
  | weekly days h24 m dur =>
    obtain ⟨_, hmem, hm⟩ := parseCore_weekly_inv hp
    exact ⟨hmem, rfl, h24, m, hm, rfl⟩

/-- Claim C2 amended, witness at a concrete input. -/
theorem C2_field_invariants_amended_witness :
    (∀ nm ∈ (parse_schedule_string ⟨2026, 10, 12⟩ "Mon/Wed 7:00 AM").pattern.days,
      nm ∈ fullDayNames) ∧
    (parse_schedule_string ⟨2026, 10, 12⟩ "Mon/Wed 7:00 AM").exceptions = [] ∧
    ∃ h24 m, m ≤ 99 ∧
      (parse_schedule_string ⟨2026, 10, 12⟩ "Mon/Wed 7:00 AM").pattern.time =
        some (mkTimeStr h24 m) :=
  C2_field_invariants_amended ⟨2026, 10, 12⟩ "Mon/Wed 7:00 AM" (by rfl)

/-! # Claim C8 — parser totality and fallback -/

/-- Claim C8 counterexample: on the empty string the parser returns a
`custom` record whose pattern has *no* `description` — nothing is attached —
while the claim demands the lowercased trimmed input (`""`) as
`pattern.description`. -/
theorem C8_empty_input_counterexample :
    (parse_schedule_string ⟨2026, 10, 12⟩ "").type = "custom" ∧
    (parse_schedule_string ⟨2026, 10, 12⟩ "").pattern.description = none ∧
    (parse_schedule_string ⟨2026, 10, 12⟩ "").pattern.description ≠
      some (lowerStr (pyStrip "".data)) := by
  refine ⟨rfl, rfl, by decide⟩

/-- Claim C8 (amended): every parse returns a record tagged
`weekly_recurring` or `custom`; a `weekly_recurring` record has non-empty
`pattern.days`; a `custom` record carries the lowercased trimmed input as
`pattern.description` — except for empty/whitespace-only input, whose custom
record has an empty pattern with no description. -/
theorem C8_parser_totality_amended (today : PyDate) (s : String) :
    ((parse_schedule_string today s).type = "weekly_recurring" ∨
      (parse_schedule_string today s).type = "custom") ∧
    ((parse_schedule_string today s).type = "weekly_recurring" →
      (parse_schedule_string today s).pattern.days ≠ []) ∧
    ((parse_schedule_string today s).type = "custom" →
      (parse_schedule_string today s).pattern.description =
          some (lowerStr (pyStrip s.data)) ∨
        (pyStrip s.data = [] ∧
          (parse_schedule_string today s).pattern.description = none)) := by
  unfold parse_schedule_string
  cases hp : parseCore s with
  | empty =>
    refine ⟨Or.inr rfl, fun h => by simp at h, fun _ => ?_⟩
    exact Or.inr ⟨parseCore_empty_inv hp, rfl⟩
  | basic b =>
    refine ⟨Or.inr rfl, fun h => by simp at h, fun _ => ?_⟩
    exact Or.inl (by simp [(parseCore_basic_inv hp).1])
  | weekly days h24 m dur =>
    refine ⟨Or.inl rfl, fun _ => ?_, fun h => by simp at h⟩
    simpa using (parseCore_weekly_inv hp).1

/-- Claim C8 amended, witness at a concrete input. -/
theorem C8_parser_totality_amended_witness :
    (parse_schedule_string ⟨2026, 10, 12⟩ "whenever we feel like it").type =
      "custom" ∧
    (parse_schedule_string ⟨2026, 10, 12⟩
        "whenever we feel like it").pattern.description =
      some (lowerStr (pyStrip "whenever we feel like it".data)) := by
  have h := C8_parser_totality_amended ⟨2026, 10, 12⟩ "whenever we feel like it"
  refine ⟨rfl, (h.2.2 rfl).resolve_right ?_⟩
  intro hc
  exact absurd hc.1 (by decide)

/-! # Claim C9 — purity and determinism -/

/-- Claim C9 counterexample: `parse_schedule_string` reads the wall clock
(`date.today()`): two invocations with the identical argument `"mon 7:00 am"`
on different days return different records (different
`date_range.start_date`), refuting "results are identical regardless of when
they run". -/
theorem C9_parse_depends_on_clock_counterexample :
    parse_schedule_string ⟨2026, 10, 12⟩ "mon 7:00 am" ≠
      parse_schedule_string ⟨2026, 11, 2⟩ "mon 7:00 am" ∧
    (parse_schedule_string ⟨2026, 10, 12⟩ "mon 7:00 am").date_range.start_date =
      some "2026-10-01".data ∧
    (parse_schedule_string ⟨2026, 11, 2⟩ "mon 7:00 am").date_range.start_date =
      some "2026-11-01".data := by
  refine ⟨by decide, rfl, rfl⟩

/-- Claim C9 (amended): `normalize` and `validate` are pure functions of
their explicit arguments (they take no clock input at all in this
embedding); `parse` (and `enumerate` when `from_date` is defaulted) also
reads the current date, but the clock influences nothing except
`date_range.start_date`: every other field of the result is a function of
the schedule string alone. -/
theorem C9_purity_amended (t1 t2 : PyDate) (s : String) :
    (parse_schedule_string t1 s).type = (parse_schedule_string t2 s).type ∧
    (parse_schedule_string t1 s).pattern = (parse_schedule_string t2 s).pattern ∧
    (parse_schedule_string t1 s).exceptions =
      (parse_schedule_string t2 s).exceptions ∧
    (parse_schedule_string t1 s).original_schedule =
      (parse_schedule_string t2 s).original_schedule ∧
    (parse_schedule_string t1 s).date_range.end_date =
      (parse_schedule_string t2 s).date_range.end_date := by
  unfold parse_schedule_string
  cases parseCore s <;> exact ⟨rfl, rfl, rfl, rfl, rfl⟩

/-! # Claim C3 — core totality of validation after parsing -/

theorem renderNat_ne_nil (n : Nat) : renderNat n ≠ [] := by
  unfold renderNat
  cases n with
  | zero => simp [renderNatAux]
  | succ k =>
    simp only [renderNatAux]
    split
    · simp
    · simp

theorem pad2_ne_nil (n : Nat) : pad2 n ≠ [] := by
  unfold pad2
  split
  · simp
  · exact renderNat_ne_nil n

theorem isoDate_isEmpty (d : PyDate) : (isoDate d).isEmpty = false := by
  unfold isoDate
  cases h : pad4 d.year with
  | nil =>
    exfalso
    unfold pad4 at h
    split at h
    · simp at h
    · split at h
      · simp at h
      · split at h
        · simp at h
        · exact renderNat_ne_nil _ h
  | cons c rest => simp

theorem mkTimeStr_isEmpty (h m : Nat) : (mkTimeStr h m).isEmpty = false := by
  unfold mkTimeStr
  cases hp : pad2 h with
  | nil => exact absurd hp (pad2_ne_nil h)
  | cons c rest => simp

/-- Validation of a record freshly produced by the weekly branch of the
parser never raises, provided the stored `pattern.time` parses (it always
does when the input's numerals are a real clock time) or no target time is
supplied. -/
theorem validate_weekly_total (days : List (List Char)) (h24 m : Nat)
    (dur : Int) (today d : PyDate) (t : Option (Nat × Nat))
    (hv : ValidDate today) (h9 : today.year ≤ 9999)
    (ht : t ≠ none → (parseIsoTime (mkTimeStr h24 m)).isSome = true) :
    (validate_target_date
      { type := "weekly_recurring",
        pattern := { days := days, time := some (mkTimeStr h24 m),
                     duration_minutes := some dur,
                     timezone := some defaultTimezone },
        date_range := { start_date := some (isoDate (firstOfMonth today)),
                        end_date := none },
        exceptions := [] } d t).isSome = true := by
  unfold validate_target_date
  split
  · rfl
  split
  · rfl
  split
  · rfl
  · -- day accepted: the start-date window check
    show (validateStart (some (isoDate (firstOfMonth today))) none []
      (some (mkTimeStr h24 m)) d t).isSome = true
    simp only [validateStart]
    rw [if_neg (by simp [isoDate_isEmpty])]
    rw [parseIsoDate_isoDate (firstOfMonth_valid hv) h9]
    simp only [startCheck]
    split
    · rfl
    · -- end_date is none, no exceptions: the time check remains
      simp only [validateEnd]
      unfold validateExceptions
      rw [if_neg (by simp)]
      cases t with
      | none => rfl
      | some tt =>
        simp only [validateTime]
        rw [if_neg (by simp [mkTimeStr_isEmpty])]
        obtain ⟨ct, hct⟩ := Option.isSome_iff_exists.mp (ht (by simp))
        rw [hct]
        simp only [timeWithin]
        split <;> rfl

/-- Claim C3 (amended): for every schedule string, target date and optional
target time, validating the parsed record completes without raising whenever
no target time is supplied or the parsed record's `pattern.time` is a valid
24-hour time (which holds for every well-formed schedule); the clock-reading
parse is assumed to run on a Python-representable date. -/
theorem C3_validator_totality_amended (today : PyDate) (s : String)
    (d : PyDate) (t : Option (Nat × Nat))
    (hv : ValidDate today) (h9 : today.year ≤ 9999)
    (ht : ∀ ts, (parse_schedule_string today s).pattern.time = some ts →
      t ≠ none → (parseIsoTime ts).isSome = true) :
    (validate_target_date (parse_schedule_string today s) d t).isSome = true := by
  unfold parse_schedule_string at ht ⊢
  cases hp : parseCore s with
  | empty => rfl
  | basic b => rfl
  | weekly days h24 m dur =>
    rw [hp] at ht
    exact validate_weekly_total days h24 m dur today d t hv h9 (ht _ rfl)

/-- Claim C3 amended, witness at a concrete input. -/
theorem C3_validator_totality_amended_witness :
    (validate_target_date
      (parse_schedule_string ⟨2026, 10, 12⟩ "Mon/Wed/Fri 7:00 AM")
      ⟨2026, 10, 14⟩ (some (7, 5))).isSome = true :=
  C3_validator_totality_amended ⟨2026, 10, 12⟩ "Mon/Wed/Fri 7:00 AM"
    ⟨2026, 10, 14⟩ (some (7, 5)) (by decide) (by decide)
    (fun ts hts _ => by
      have he : ts = "07:00".data := by
        have : (parse_schedule_string ⟨2026, 10, 12⟩
            "Mon/Wed/Fri 7:00 AM").pattern.time = some "07:00".data := by decide
        rw [this] at hts
        exact (Option.some.injEq _ _ ▸ hts).symm
      rw [he]
      decide)

/-- Claim C3 counterexample: the garbage input `"mon 25:61"` parses to a
weekly record with `pattern.time = "25:61"`; validating a matching Monday
with a supplied target time then raises `ValueError` inside
`time.fromisoformat` (embedded as `none`), so rejections are *not* always
reported as data. -/
theorem C3_validator_raises_counterexample :
    validate_target_date (parse_schedule_string ⟨2026, 10, 12⟩ "mon 25:61")
      ⟨2026, 10, 12⟩ (some (7, 0)) = none := by decide

/-! # Claim C5 — validator consistency on the canonical MWF record -/

/-- The record of the claim: `parse("Mon/Wed/Fri 7:00 AM")`, parsed with the
clock reading 2026-10-12 (so `date_range.start_date = "2026-10-01"`). -/
def mwfRecordOct2026 : Schedule :=
  parse_schedule_string ⟨2026, 10, 12⟩ "Mon/Wed/Fri 7:00 AM"

/-- Claim C5 counterexample: 2026-09-28 is a Monday, yet
`isValidOccurrence(record, 2026-09-28, 07:00)` is `false`, because the
parser stamps `date_range.start_date` with the first of the parse month
(2026-10-01) and the validator rejects earlier dates — so "true for every
Monday" fails. -/
theorem C5_monday_before_start_counterexample :
    weekdayNum ⟨2026, 9, 28⟩ = 0 ∧
    validate_target_date mwfRecordOct2026 ⟨2026, 9, 28⟩ (some (7, 0)) =
      some false := by decide

/-- Claim C5 (amended): for the record parsed from `"Mon/Wed/Fri 7:00 AM"`
(clock 2026-10-12), validation at 07:00 of any Monday returns exactly
"the date is on or after the record's start date 2026-10-01" — true for
every Monday from 2026-10-01 on, false for earlier Mondays — and validation
of any Tuesday returns false. -/
theorem C5_validator_consistency_amended (d : PyDate) :
    (weekdayNum d = 0 →
      validate_target_date mwfRecordOct2026 d (some (7, 0)) =
        some (!(dateLt d ⟨2026, 10, 1⟩))) ∧
    (weekdayNum d = 1 →
      validate_target_date mwfRecordOct2026 d (some (7, 0)) = some false) := by
  have hrec : mwfRecordOct2026 =
      { type := "weekly_recurring",
        pattern := { days := ["monday".data, "wednesday".data, "friday".data],
                     time := some "07:00".data, duration_minutes := some 60,
                     timezone := some "America/New_York" },
        date_range := { start_date := some "2026-10-01".data,
                        end_date := none },
        exceptions := [] } := by decide
  constructor
  · intro hw
    rw [hrec]
    unfold validate_target_date
    rw [hw]
    show validateStart (some "2026-10-01".data) none [] (some "07:00".data)
      d (some (7, 0)) = some (!(dateLt d ⟨2026, 10, 1⟩))
    simp only [validateStart]
    rw [if_neg (by decide)]
    rw [show parseIsoDate "2026-10-01".data = some ⟨2026, 10, 1⟩ from by decide]
    simp only [startCheck]
    cases hlt : dateLt d ⟨2026, 10, 1⟩ with
    | true => rfl
    | false => rfl
  · intro hw
    rw [hrec]
    unfold validate_target_date
    rw [hw]
    rfl

/-- Claim C5 amended, witness at concrete dates (a Monday after the start
date, and a Tuesday). -/
theorem C5_validator_consistency_amended_witness :
    validate_target_date mwfRecordOct2026 ⟨2026, 10, 19⟩ (some (7, 0)) =
      some (!(dateLt ⟨2026, 10, 19⟩ ⟨2026, 10, 1⟩)) ∧
    dateLt ⟨2026, 10, 19⟩ ⟨2026, 10, 1⟩ = false ∧
    validate_target_date mwfRecordOct2026 ⟨2026, 10, 13⟩ (some (7, 0)) =
      some false :=
  ⟨(C5_validator_consistency_amended ⟨2026, 10, 19⟩).1 (by decide),
   by decide,
   (C5_validator_consistency_amended ⟨2026, 10, 13⟩).2 (by decide)⟩

/-! # Claim C4 — enumerator postconditions -/

theorem daysBeforeMonth_succ (y m : Nat) (h : 1 ≤ m) :
    daysBeforeMonth y (m + 1) = daysBeforeMonth y m + daysInMonth y m := by
  unfold daysBeforeMonth
  have e1 : m + 1 - 1 = m := by omega
  have e2 : m = (m - 1) + 1 := by omega
  rw [e1]
  conv_lhs => rw [e2]
  rw [List.range_succ, List.foldl_append]
  simp only [List.foldl_cons, List.foldl_nil]
  rw [← e2]

theorem daysBeforeMonth_12 (y : Nat) :
    daysBeforeMonth y 12 = 334 + (if isLeap y then 1 else 0) := by
  cases hle : isLeap y <;>
    simp [daysBeforeMonth, List.range_succ, daysInMonth, hle]

theorem nextDay_valid {d : PyDate} (h : ValidDate d) : ValidDate (nextDay d) := by
  obtain ⟨h1, h2, h3, h4, h5⟩ := h
  unfold nextDay
  by_cases c1 : d.day < daysInMonth d.year d.month
  · rw [if_pos c1]
    refine ⟨?_, ?_, ?_, ?_, ?_⟩ <;> dsimp only <;> omega
  · rw [if_neg c1]
    by_cases c2 : d.month < 12
    · rw [if_pos c2]
      have hp := daysInMonth_pos d.year (d.month + 1)
      refine ⟨?_, ?_, ?_, ?_, ?_⟩ <;> dsimp only <;> omega
    · rw [if_neg c2]
      have hp := daysInMonth_pos (d.year + 1) 1
      refine ⟨?_, ?_, ?_, ?_, ?_⟩ <;> dsimp only <;> omega

theorem daysInMonth_12 (y : Nat) : daysInMonth y 12 = 31 := rfl

set_option maxHeartbeats 1000000 in
theorem toordinal_nextDay {d : PyDate} (h : ValidDate d) :
    toordinal (nextDay d) = toordinal d + 1 := by
  obtain ⟨h1, h2, h3, h4, h5⟩ := h
  unfold nextDay
  by_cases c1 : d.day < daysInMonth d.year d.month
  · rw [if_pos c1]
    unfold toordinal
    dsimp only
    omega
  · rw [if_neg c1]
    by_cases c2 : d.month < 12
    · rw [if_pos c2]
      unfold toordinal
      dsimp only
      rw [daysBeforeMonth_succ d.year d.month h2]
      omega
    · rw [if_neg c2]
      have hm : d.month = 12 := by omega
      rw [hm] at c1 h5
      have h31 := daysInMonth_12 d.year
      have hd31 : d.day = 31 := by omega
      unfold toordinal
      dsimp only
      rw [hm, daysBeforeMonth_12]
      have hdb1 : daysBeforeMonth (d.year + 1) 1 = 0 := by
        unfold daysBeforeMonth
        simp
      rw [hdb1, hd31]
      cases hle : isLeap d.year with
      | true =>
        rw [if_pos rfl]
        simp only [isLeap, Bool.or_eq_true, Bool.and_eq_true,
          decide_eq_true_eq, bne_iff_ne, ne_eq] at hle
        omega
      | false =>
        rw [if_neg (by simp)]
        have hle2 : ¬ (isLeap d.year = true) := by simp [hle]
        simp only [isLeap, Bool.or_eq_true, Bool.and_eq_true,
          decide_eq_true_eq, bne_iff_ne, ne_eq, not_or, not_and,
          Decidable.not_not] at hle2
        omega

/-- The ordering used for "ascending" below: chronological order of the
emitted timestamps' dates. -/
def occBefore (a c : OccurrenceDT) : Prop := toordinal a.day < toordinal c.day

/-- Loop invariant of the scanning loop: as long as the scan window stays
inside Python's calendar the loop returns normally (no `OverflowError`),
every element it adds is on a valid weekday, not an exception, within the
end bound, and the output stays strictly ascending, at most `limit` long,
and within the scanned window. -/
theorem enumGo_spec (vw : List Nat) (ct : Nat × Nat) (tz : String)
    (exc : List (List Char)) (endD : Option PyDate) (limit : Nat) :
    ∀ (b : Nat) (cur : PyDate) (acc : List OccurrenceDT),
      ValidDate cur →
      toordinal cur + b ≤ toordinal dateMax →
      (∀ o ∈ acc, toordinal o.day < toordinal cur) →
      List.Chain' occBefore acc →
      acc.length ≤ limit →
      ∃ out, enumGo vw ct tz exc endD limit b cur acc = some out ∧
        (∀ o ∈ out,
          o ∈ acc ∨
            (vw.contains (weekdayNum o.day) = true ∧
             exc.contains (isoDate o.day) = false ∧
             (∀ ed, endD = some ed → dateLe o.day ed = true) ∧
             toordinal cur ≤ toordinal o.day ∧
             toordinal o.day < toordinal cur + b)) ∧
        List.Chain' occBefore out ∧
        out.length ≤ limit := by
  intro b
  induction b with
  | zero =>
    intro cur acc _ _ _ hch hlen
    exact ⟨acc, rfl, fun o ho => Or.inl ho, hch, hlen⟩
  | succ n ih =>
    intro cur acc hval hcal hlt hch hlen
    by_cases hful : limit ≤ acc.length
    · have he : enumGo vw ct tz exc endD limit (n + 1) cur acc = some acc := by
        simp only [enumGo]
        rw [if_pos hful]
      exact ⟨acc, he, fun o ho => Or.inl ho, hch, hlen⟩
    · have hord := toordinal_nextDay hval
      have hnm : cur ≠ dateMax := by
        intro heq
        rw [heq] at hcal
        omega
      have hcal2 : toordinal (nextDay cur) + n ≤ toordinal dateMax := by
        rw [hord]
        omega
      by_cases hc : (vw.contains (weekdayNum cur) &&
          !(exc.contains (isoDate cur)) && endOk cur endD) = true
      · -- the current day is emitted
        have he : enumGo vw ct tz exc endD limit (n + 1) cur acc =
            enumGo vw ct tz exc endD limit n (nextDay cur)
              (acc ++ [⟨cur, ct.1, ct.2, tz⟩]) := by
          simp only [enumGo]
          rw [if_neg hful, if_neg hnm, if_pos hc]
        rw [he]
        simp only [Bool.and_eq_true, Bool.not_eq_true'] at hc
        obtain ⟨⟨hwk, hexc⟩, hend⟩ := hc
        have hlt2 : ∀ o ∈ acc ++ [⟨cur, ct.1, ct.2, tz⟩],
            toordinal o.day < toordinal (nextDay cur) := by
          intro o ho
          rw [hord]
          rcases List.mem_append.mp ho with h1 | h1
          · have := hlt o h1
            omega
          · simp only [List.mem_singleton] at h1
            subst h1
            dsimp only
            omega
        have hch2 : List.Chain' occBefore (acc ++ [⟨cur, ct.1, ct.2, tz⟩]) := by
          refine List.Chain'.append hch (List.chain'_singleton _) ?_
          intro x hx y hy
          simp only [List.head?_cons, Option.mem_def, Option.some.injEq] at hy
          subst hy
          exact hlt x (List.mem_of_mem_getLast? hx)
        have hlen2 : (acc ++ [(⟨cur, ct.1, ct.2, tz⟩ : OccurrenceDT)]).length ≤ limit := by
          simp only [List.length_append, List.length_singleton]
          omega
        obtain ⟨out, hout, hmem3, hch3, hlen3⟩ :=
          ih (nextDay cur) (acc ++ [⟨cur, ct.1, ct.2, tz⟩])
            (nextDay_valid hval) hcal2 hlt2 hch2 hlen2
        refine ⟨out, hout, ?_, hch3, hlen3⟩
        intro o ho
        rcases hmem3 o ho with h1 | h1
        · rcases List.mem_append.mp h1 with h2 | h2
          · exact Or.inl h2
          · simp only [List.mem_singleton] at h2
            subst h2
            refine Or.inr ⟨hwk, hexc, ?_, by dsimp only; omega,
              by dsimp only; omega⟩
            intro ed hed
            rw [hed] at hend
            simpa [endOk] using hend
        · obtain ⟨q1, q2, q3, q4, q5⟩ := h1
          rw [hord] at q4 q5
          exact Or.inr ⟨q1, q2, q3, by omega, by omega⟩
      · -- the current day is skipped
        have he : enumGo vw ct tz exc endD limit (n + 1) cur acc =
            enumGo vw ct tz exc endD limit n (nextDay cur) acc := by
          simp only [enumGo]
          rw [if_neg hful, if_neg hnm, if_neg hc]
        rw [he]
        have hlt2 : ∀ o ∈ acc, toordinal o.day < toordinal (nextDay cur) := by
          intro o ho
          have := hlt o ho
          omega
        obtain ⟨out, hout, hmem3, hch3, hlen3⟩ :=
          ih (nextDay cur) acc (nextDay_valid hval) hcal2 hlt2 hch hlen
        refine ⟨out, hout, ?_, hch3, hlen3⟩
        intro o ho
        rcases hmem3 o ho with h1 | h1
        · exact Or.inl h1
        · obtain ⟨q1, q2, q3, q4, q5⟩ := h1
          rw [hord] at q4 q5
          exact Or.inr ⟨q1, q2, q3, by omega, by omega⟩

/-- Claim C4 (amended): for every weekly_recurring record with non-empty
`pattern.days`, any (Python-valid) `fromDate` and any limit, provided (a)
`date_range.end_date` is absent, falsy, or a valid ISO date (otherwise the
Python code raises `ValueError` at line 364) and (b) the `limit * 10`-day
scan window stays within Python's calendar, i.e. does not reach past
`date.max` = 9999-12-31 (otherwise `current_date += timedelta(days=1)` at
line 383 raises `OverflowError`), the enumerator returns at most `limit`
timestamps, strictly ascending, each on a weekday resolved from
`pattern.days`, on or after `fromDate`, within the `limit * 10`-day scan
window, not listed in `exceptions`, and on or before `end_date` when that is
set — but the enumerator does **not** enforce `date_range.start_date`; that
clause of the claim is dropped. -/
theorem C4_enumerator_postconditions_amended (sched : Schedule)
    (from_date : PyDate) (limit : Nat)
    (hty : sched.type = "weekly_recurring")
    (hdays : sched.pattern.days ≠ [])
    (hval : ValidDate from_date)
    (hcal : toordinal from_date + limit * 10 ≤ toordinal dateMax)
    (hend : (endResolved sched).isSome = true) :
    ∃ l, get_next_available_dates sched from_date limit = some l ∧
      l.length ≤ limit ∧
      List.Chain' occBefore l ∧
      ∀ o ∈ l,
        (∃ nm ∈ sched.pattern.days,
          DAYS_MAP.lookup (lowerStr nm) = some (weekdayNum o.day)) ∧
        toordinal from_date ≤ toordinal o.day ∧
        toordinal o.day < toordinal from_date + limit * 10 ∧
        sched.exceptions.contains (isoDate o.day) = false ∧
        (∀ s ed, sched.date_range.end_date = some s →
          parseIsoDate s = some ed → dateLe o.day ed = true) := by
  unfold get_next_available_dates
  rw [if_neg (by simp [hty])]
  rw [if_neg (by simpa [List.isEmpty_iff] using hdays)]
  by_cases hvw : (validWeekdaysOf sched).isEmpty
  · rw [if_pos hvw]
    exact ⟨[], rfl, by simp, List.chain'_nil, by simp⟩
  · rw [if_neg hvw]
    obtain ⟨endD, hendD⟩ := Option.isSome_iff_exists.mp hend
    rw [hendD]
    obtain ⟨out, hout, hmem, hch, hlen⟩ :=
      enumGo_spec (validWeekdaysOf sched) (classTimeOf sched)
        (resolveTz (sched.pattern.timezone.getD defaultTimezone)
          defaultTimezone)
        sched.exceptions endD limit (limit * 10) from_date [] hval hcal
        (by simp) List.chain'_nil (by simp)
    refine ⟨out, hout, hlen, hch, ?_⟩
    intro o ho
    rcases hmem o ho with h1 | h1
    · simp at h1
    · obtain ⟨q1, q2, q3, q4, q5⟩ := h1
      refine ⟨?_, q4, q5, q2, ?_⟩
      · have hm : weekdayNum o.day ∈ validWeekdaysOf sched := by
          simpa using q1
        unfold validWeekdaysOf at hm
        simpa [List.mem_filterMap] using hm
      · intro s ed hs hp
        apply q3
        unfold endResolved at hendD
        rw [hs] at hendD
        simp only [endFieldResolve] at hendD
        by_cases hse : s.isEmpty
        · exfalso
          rw [List.isEmpty_iff] at hse
          subst hse
          simp [parseIsoDate] at hp
        · rw [if_neg hse, hp] at hendD
          simp only [endParsedOpt, Option.some.injEq] at hendD
          rw [← hendD]

/-- A record whose `date_range.start_date` lies far in the future (the rest
of the record is what `parse("Mon 7:00 AM")` would produce). -/
def futureStartSched : Schedule :=
  { type := "weekly_recurring",
    pattern := { days := ["monday".data], time := some "07:00".data,
                 duration_minutes := some 60,
                 timezone := some "America/New_York" },
    date_range := { start_date := some "2099-01-01".data, end_date := none },
    exceptions := [] }

/-- Claim C4 counterexample, refuting two clauses of the original claim.
First, the enumerator ignores `date_range.start_date`: with
`start_date = 2099-01-01` and `fromDate` 2026-10-12 (a Monday) it emits
2026-10-12, which is *before* the start date, contradicting "falls within
date_range (on or after start_date when start_date is set)".  Second, it is
not total over "every fromDate and every limit": from `date.max` =
9999-12-31 the first iteration's `current_date += timedelta(days=1)` raises
`OverflowError` (`none`), so nothing is returned. -/
theorem C4_start_date_ignored_counterexample :
    get_next_available_dates futureStartSched ⟨2026, 10, 12⟩ 1 =
      some [⟨⟨2026, 10, 12⟩, 7, 0, "America/New_York"⟩] ∧
    futureStartSched.date_range.start_date = some "2099-01-01".data ∧
    dateLt ⟨2026, 10, 12⟩ ⟨2099, 1, 1⟩ = true ∧
    get_next_available_dates futureStartSched ⟨9999, 12, 31⟩ 1 = none := by
  refine ⟨by decide, rfl, by decide, by decide⟩

/-- Claim C4 amended, witness at a concrete record and date. -/
theorem C4_enumerator_postconditions_amended_witness :
    ∃ l, get_next_available_dates futureStartSched ⟨2026, 10, 12⟩ 2 = some l ∧
      l.length ≤ 2 ∧
      List.Chain' occBefore l ∧
      ∀ o ∈ l,
        (∃ nm ∈ futureStartSched.pattern.days,
          DAYS_MAP.lookup (lowerStr nm) = some (weekdayNum o.day)) ∧
        toordinal ⟨2026, 10, 12⟩ ≤ toordinal o.day ∧
        toordinal o.day < toordinal ⟨2026, 10, 12⟩ + 2 * 10 ∧
        futureStartSched.exceptions.contains (isoDate o.day) = false ∧
        (∀ s ed, futureStartSched.date_range.end_date = some s →
          parseIsoDate s = some ed → dateLe o.day ed = true) :=
  C4_enumerator_postconditions_amended futureStartSched ⟨2026, 10, 12⟩ 2
    rfl (by decide) (by decide) (by decide) (by decide)

/-! # Claim C6 — normalizer output shape -/

theorem timeTailMain_bound {r : List Char} {v : Nat × Nat}
    (h : timeTailMain r = some v) : v.1 ≤ 99 ∧ v.2 ≤ 99 := by
  unfold timeTailMain at h
  rcases orElse_eq_some h with h1 | h1
  · split at h1
    case _ =>
      split at h1
      case isTrue hdig =>
        simp only [Bool.and_eq_true] at hdig
        obtain ⟨⟨⟨⟨ha, hb⟩, hc⟩, hd⟩, _⟩ := hdig
        simp only [Option.some.injEq] at h1
        subst h1
        exact ⟨two_digit_le99 ha hb, two_digit_le99 hc hd⟩
      case isFalse => exact absurd h1 (by simp)
    case _ => exact absurd h1 (by simp)
  · split at h1
    case _ =>
      split at h1
      case isTrue hdig =>
        simp only [Bool.and_eq_true] at hdig
        obtain ⟨⟨⟨ha, hc⟩, hd⟩, _⟩ := hdig
        simp only [Option.some.injEq] at h1
        subst h1
        exact ⟨one_digit_le99 ha, two_digit_le99 hc hd⟩
      case isFalse => exact absurd h1 (by simp)
    case _ => exact absurd h1 (by simp)

theorem restMatch_bound {cs : List Char} {v : Nat × Nat}
    (h : restMatch cs = some v) : v.1 ≤ 99 ∧ v.2 ≤ 99 := by
  unfold restMatch at h
  split at h
  · split at h
    · exact timeTailMain_bound h
    · exact absurd h (by simp)
  · exact absurd h (by simp)

theorem normGo_bound :
    ∀ {rest acc d : List Char} {hv m : Nat},
      normGo acc rest = some (d, hv, m) → hv ≤ 99 ∧ m ≤ 99 := by
  intro rest
  induction rest with
  | nil =>
    intro acc d hv m h
    simp [normGo] at h
  | cons c rs ih =>
    intro acc d hv m h
    rw [normGo] at h
    split at h
    case _ w heq =>
      split at heq
      · exact absurd heq (by simp)
      · cases h
        exact restMatch_bound heq
    case _ =>
      split at h
      · exact ih h
      · exact absurd h (by simp)

theorem lookup_val_mem {α β : Type} [BEq α] {l : List (α × β)} {k : α}
    {v : β} (h : List.lookup k l = some v) : v ∈ l.map Prod.snd := by
  induction l with
  | nil => simp [List.lookup] at h
  | cons p rest ih =>
    obtain ⟨pk, pv⟩ := p
    cases hbeq : k == pk with
    | true =>
      simp only [List.lookup, hbeq, Option.some.injEq] at h
      subst h
      exact List.mem_cons_self _ _
    | false =>
      simp only [List.lookup, hbeq] at h
      exact List.mem_cons_of_mem _ (ih h)

theorem day_name_map_lookup_mem {k v : List Char}
    (h : day_name_map.lookup k = some v) : v ∈ dayAbbrevs := by
  have hm := lookup_val_mem h
  fin_cases hm <;> decide

theorem normTokens_mem {daysRaw : List Char} :
    ∀ x ∈ normTokens daysRaw, x ∈ dayAbbrevs := by
  intro x hx
  unfold normTokens at hx
  simp only [List.mem_filterMap] at hx
  obtain ⟨t, _, ht⟩ := hx
  exact day_name_map_lookup_mem ht

/-- Structural facts about every successful normalizer extraction. -/
theorem normCore_inv {s : String} {p : NormParts} (h : normCore s = some p) :
    p.abbrevs ≠ [] ∧ (∀ x ∈ p.abbrevs, x ∈ dayAbbrevs) ∧
    p.minute ≤ 99 ∧ p.hour24 ≤ 111 := by
  unfold normCore at h
  split at h
  · exact absurd h (by simp)
  · split at h
    case _ => exact absurd h (by simp)
    case _ w daysRaw hour minute heq =>
      split at h
      case isTrue => exact absurd h (by simp)
      case isFalse hne =>
        simp only [Option.some.injEq] at h
        subst h
        have hb := normGo_bound
          (show normGo [] (pyStrip s.data) = some (daysRaw, hour, minute)
            from heq)
        dsimp only
        refine ⟨by simpa using hne, normTokens_mem, hb.2, ?_⟩
        unfold normHour24
        split
        · split <;> omega
        · split <;> omega
        · omega

/-- Claim C6 counterexample: normalization of `"mon 25:00"` succeeds (it does
not fall back to returning the input), yet produces `"Mon 13:00 PM"`, whose
hour 13 is outside the claimed 1-12 range. -/
theorem C6_hour_out_of_range_counterexample :
    (normCore "mon 25:00").isSome = true ∧
    normalize_schedule "mon 25:00" = "Mon 13:00 PM" ∧
    canonicalParse (normalize_schedule "mon 25:00").data =
      some (["Mon".data], 13, 0, true) ∧
    ¬ (13 ≤ 12) := by
  refine ⟨rfl, by decide, by decide, by decide⟩

/-- Claim C6 (amended): whenever normalization succeeds, the output is
`Day3(/Day3)* H:MM (AM|PM)` with `Day3` drawn from the seven 3-letter
abbreviations and a zero-padded two-digit minute; the hour is between 1 and
12 whenever the interpreted 24-hour value is at most 23, but inputs with
out-of-range hours (e.g. `"mon 25:00"` → `"Mon 13:00 PM"`) produce hours
above 12 (never above 99). -/
theorem C6_normalizer_shape_amended (s : String) (p : NormParts)
    (h : normCore s = some p) :
    normalize_schedule s =
      ⟨intercalateChar '/' p.abbrevs ++
        ' ' :: (renderNat (renderDisplay p.hour24).1 ++
          ':' :: (pad2 p.minute ++ ' ' :: (renderDisplay p.hour24).2))⟩ ∧
    p.abbrevs ≠ [] ∧
    (∀ x ∈ p.abbrevs, x ∈ dayAbbrevs) ∧
    p.minute ≤ 99 ∧
    ((renderDisplay p.hour24).2 = "AM".data ∨
      (renderDisplay p.hour24).2 = "PM".data) ∧
    1 ≤ (renderDisplay p.hour24).1 ∧ (renderDisplay p.hour24).1 ≤ 99 ∧
    (p.hour24 ≤ 23 → (renderDisplay p.hour24).1 ≤ 12) := by
  obtain ⟨h1, h2, h3, h4⟩ := normCore_inv h
  refine ⟨?_, h1, h2, h3, ?_, ?_, ?_, ?_⟩
  · unfold normalize_schedule
    rw [h]
    rfl
  · unfold renderDisplay
    split
    · exact Or.inl rfl
    split
    · exact Or.inl rfl
    split
    · exact Or.inr rfl
    · exact Or.inr rfl
  · unfold renderDisplay
    split
    · omega
    split
    · dsimp only
      omega
    split
    · omega
    · dsimp only
      omega
  · unfold renderDisplay
    split
    · omega
    split
    · dsimp only
      omega
    split
    · omega
    · dsimp only
      omega
  · intro hle
    unfold renderDisplay
    split
    · omega
    split
    · dsimp only
      omega
    split
    · omega
    · dsimp only
      omega

/-- Claim C6 amended, witness at a concrete input. -/
theorem C6_normalizer_shape_amended_witness :
    normalize_schedule "MON,WED,FRI 18:00" =
      ⟨intercalateChar '/' ["Mon".data, "Wed".data, "Fri".data] ++
        ' ' :: (renderNat (renderDisplay 18).1 ++
          ':' :: (pad2 0 ++ ' ' :: (renderDisplay 18).2))⟩ ∧
    (18 ≤ 23 → (renderDisplay 18).1 ≤ 12) := by
  have h := C6_normalizer_shape_amended "MON,WED,FRI 18:00"
    ⟨["Mon".data, "Wed".data, "Fri".data], 18, 0⟩ (by decide)
  exact ⟨h.1, h.2.2.2.2.2.2.2⟩

/-! ## Claim C7: normalizer idempotence

`normalize_schedule` is literally the identity on inputs where extraction
fails, so idempotence reduces to: re-normalizing a rendered canonical string
reproduces it.  The lemmas below re-run every stage of `normCore` on
`renderCanonical p` for any `p` satisfying `normCore_inv`. -/

theorem searchAmPm_skip1 (c : Char)
    (hc : c ≠ 'a' ∧ c ≠ 'A' ∧ c ≠ 'p' ∧ c ≠ 'P') (t : List Char) :
    searchAmPm (c :: t) = searchAmPm t := by
  cases t with
  | nil => rfl
  | cons y t2 =>
    simp [searchAmPm, hc.1, hc.2.1, hc.2.2.1, hc.2.2.2]

theorem searchAmPm_skip2 (c y : Char) (hy : y ≠ 'm' ∧ y ≠ 'M') (t : List Char) :
    searchAmPm (c :: y :: t) = searchAmPm (y :: t) := by
  simp [searchAmPm, hy.1, hy.2]

theorem digit_not_ampm {c : Char} (h : isAsciiDigit c = true) :
    c ≠ 'a' ∧ c ≠ 'A' ∧ c ≠ 'p' ∧ c ≠ 'P' := by
  refine ⟨?_, ?_, ?_, ?_⟩ <;>
    (intro he; subst he; exact absurd h (by decide))

theorem digit_not_ws {c : Char} (h : isAsciiDigit c = true) : isWs c = false := by
  cases hw : isWs c
  · rfl
  · exfalso
    unfold isWs at hw
    simp only [Bool.or_eq_true, decide_eq_true_eq] at hw
    rcases hw with ((((h2 | h2) | h2) | h2) | h2) | h2 <;>
      (subst h2; exact absurd h (by decide))

theorem searchAmPm_digit (c : Char) (h : isAsciiDigit c = true) (t : List Char) :
    searchAmPm (c :: t) = searchAmPm t :=
  searchAmPm_skip1 c (digit_not_ampm h) t

theorem searchAmPm_day3 {x : List Char} (hx : x ∈ dayAbbrevs) (t : List Char) :
    searchAmPm (x ++ t) = searchAmPm t := by
  simp only [dayAbbrevs, List.mem_cons, List.not_mem_nil, or_false] at hx
  rcases hx with h | h | h | h | h | h | h <;> subst h <;>
    simp only [List.cons_append, List.nil_append] <;>
    first
    | rw [searchAmPm_skip1 'S' (by decide), searchAmPm_skip2 'a' 't' (by decide),
        searchAmPm_skip1 't' (by decide)]
    | (rw [searchAmPm_skip1 _ (by decide), searchAmPm_skip1 _ (by decide),
        searchAmPm_skip1 _ (by decide)])

theorem searchAmPm_inter : ∀ (L : List (List Char)),
    (∀ x ∈ L, x ∈ dayAbbrevs) →
    ∀ t, searchAmPm (intercalateChar '/' L ++ t) = searchAmPm t := by
  intro L
  induction L with
  | nil => intro _ t; rfl
  | cons x xs ih =>
    intro hL t
    cases xs with
    | nil => exact searchAmPm_day3 (hL x (by simp)) t
    | cons y ys =>
      rw [show intercalateChar '/' (x :: y :: ys) =
          x ++ '/' :: intercalateChar '/' (y :: ys) from rfl]
      rw [List.append_assoc, searchAmPm_day3 (hL x (by simp)), List.cons_append,
        searchAmPm_skip1 '/' (by decide)]
      exact ih (fun z hz => hL z (by simp [hz])) t

theorem searchAmPm_time (dh mm : Nat) (h2 : dh ≤ 99) (hm : mm ≤ 99)
    (sfx : List Char) :
    searchAmPm (renderNat dh ++ ':' :: (pad2 mm ++ ' ' :: sfx)) =
      searchAmPm sfx := by
  rw [pad2_eq hm]
  by_cases hlt : dh < 10
  · rw [renderNat_lt10 hlt]
    simp only [List.cons_append, List.nil_append]
    rw [searchAmPm_digit _ (digitChar_digit (show dh ≤ 9 by omega)).1,
      searchAmPm_skip1 ':' (by decide),
      searchAmPm_digit _ (digitChar_digit (show mm / 10 ≤ 9 by omega)).1,
      searchAmPm_digit _ (digitChar_digit (show mm % 10 ≤ 9 by omega)).1,
      searchAmPm_skip1 ' ' (by decide)]
  · rw [renderNat_two (by omega) h2]
    simp only [List.cons_append, List.nil_append]
    rw [searchAmPm_digit _ (digitChar_digit (show dh / 10 ≤ 9 by omega)).1,
      searchAmPm_digit _ (digitChar_digit (show dh % 10 ≤ 9 by omega)).1,
      searchAmPm_skip1 ':' (by decide),
      searchAmPm_digit _ (digitChar_digit (show mm / 10 ≤ 9 by omega)).1,
      searchAmPm_digit _ (digitChar_digit (show mm % 10 ≤ 9 by omega)).1,
      searchAmPm_skip1 ' ' (by decide)]

theorem timeTailMain_two (a b c d : Char) (ha : isAsciiDigit a = true)
    (hb : isAsciiDigit b = true) (hc : isAsciiDigit c = true)
    (hd : isAsciiDigit d = true) (rest : List Char)
    (ht : tailMatch rest = true) :
    timeTailMain (a :: b :: ':' :: c :: d :: rest) =
      some (10 * digitVal a + digitVal b, 10 * digitVal c + digitVal d) := by
  unfold timeTailMain
  split
  · rename_i heq
    simp only [List.cons.injEq, true_and] at heq
    obtain ⟨e1, e2, e3, e4, e5⟩ := heq
    subst e1; subst e2; subst e3; subst e4; subst e5
    simp [ha, hb, hc, hd, ht]
  · rename_i hno
    exact absurd rfl (hno a b c d rest)

theorem timeTailMain_one (a c d : Char) (ha : isAsciiDigit a = true)
    (hc : isAsciiDigit c = true) (hd : isAsciiDigit d = true)
    (rest : List Char) (ht : tailMatch rest = true) :
    timeTailMain (a :: ':' :: c :: d :: rest) =
      some (digitVal a, 10 * digitVal c + digitVal d) := by
  have hcne : c ≠ ':' := by
    intro he; subst he; exact absurd hc (by decide)
  unfold timeTailMain
  split
  · rename_i heq
    simp only [List.cons.injEq] at heq
    exact absurd heq.2.2.1 hcne
  · simp only [Option.none_orElse]
    split
    · rfl
    · rename_i hcond
      simp [ha, hc, hd, ht] at hcond

theorem timeTail_render (dh mm : Nat) (hd2 : dh ≤ 99) (hm : mm ≤ 99)
    (sfx : List Char) (hs : sfx = "AM".data ∨ sfx = "PM".data) :
    timeTailMain (renderNat dh ++ ':' :: (pad2 mm ++ ' ' :: sfx)) =
      some (dh, mm) ∧
    dropWs (renderNat dh ++ ':' :: (pad2 mm ++ ' ' :: sfx)) =
      renderNat dh ++ ':' :: (pad2 mm ++ ' ' :: sfx) := by
  have htm : tailMatch (' ' :: sfx) = true := by
    rcases hs with h | h <;> (subst h; decide)
  rw [pad2_eq hm]
  by_cases hlt : dh < 10
  · rw [renderNat_lt10 hlt]
    have hda := digitChar_digit (show dh ≤ 9 by omega)
    have hca := digitChar_digit (show mm / 10 ≤ 9 by omega)
    have hcb := digitChar_digit (show mm % 10 ≤ 9 by omega)
    simp only [List.cons_append, List.nil_append]
    constructor
    · rw [timeTailMain_one _ _ _ hda.1 hca.1 hcb.1 (' ' :: sfx) htm,
        hda.2, hca.2, hcb.2]
      have e : 10 * (mm / 10) + mm % 10 = mm := by omega
      rw [e]
    · unfold dropWs
      rw [List.dropWhile_cons_of_neg (by simp [digit_not_ws hda.1])]
  · rw [renderNat_two (by omega) hd2]
    have hda := digitChar_digit (show dh / 10 ≤ 9 by omega)
    have hdb := digitChar_digit (show dh % 10 ≤ 9 by omega)
    have hca := digitChar_digit (show mm / 10 ≤ 9 by omega)
    have hcb := digitChar_digit (show mm % 10 ≤ 9 by omega)
    simp only [List.cons_append, List.nil_append]
    constructor
    · rw [timeTailMain_two _ _ _ _ hda.1 hdb.1 hca.1 hcb.1 (' ' :: sfx) htm,
        hda.2, hdb.2, hca.2, hcb.2]
      have e1 : 10 * (dh / 10) + dh % 10 = dh := by omega
      have e2 : 10 * (mm / 10) + mm % 10 = mm := by omega
      rw [e1, e2]
    · unfold dropWs
      rw [List.dropWhile_cons_of_neg (by simp [digit_not_ws hda.1])]

/-- The characters of the seven abbreviations are day-class and non-blank. -/
theorem dayAbbrev_chars : ∀ x ∈ dayAbbrevs, ∀ c ∈ x,
    dayClassChar c = true ∧ isWs c = false := by decide

theorem dayAbbrevs_head : ∀ x ∈ dayAbbrevs,
    x.headD ' ' :: x.tail = x ∧ isWs (x.headD ' ') = false := by decide

theorem dayAbbrevs_noSep : ∀ x ∈ dayAbbrevs,
    x ≠ [] ∧ ∀ c ∈ x, isSep c = false := by decide

/-- Looking up the lowercased form of an abbreviation returns it unchanged. -/
theorem abbrev_lookup : ∀ x ∈ dayAbbrevs,
    day_name_map.lookup (lowerStr (pyStrip x)) = some x := by decide

theorem inter_cons_eq (x : List Char) (xs : List (List Char)) :
    ∃ t, intercalateChar '/' (x :: xs) = x ++ t := by
  cases xs with
  | nil => exact ⟨[], by simp [intercalateChar]⟩
  | cons y ys => exact ⟨'/' :: intercalateChar '/' (y :: ys), rfl⟩

theorem inter_chars : ∀ (L : List (List Char)), (∀ x ∈ L, x ∈ dayAbbrevs) →
    ∀ c ∈ intercalateChar '/' L, dayClassChar c = true ∧ isWs c = false := by
  intro L
  induction L with
  | nil => intro _ c hc; simp [intercalateChar] at hc
  | cons x xs ih =>
    intro hL c hc
    cases xs with
    | nil => exact dayAbbrev_chars x (hL x (by simp)) c hc
    | cons y ys =>
      rw [show intercalateChar '/' (x :: y :: ys) =
          x ++ '/' :: intercalateChar '/' (y :: ys) from rfl] at hc
      rcases List.mem_append.mp hc with h | h
      · exact dayAbbrev_chars x (hL x (by simp)) c h
      · rcases List.mem_cons.mp h with h | h
        · subst h; exact ⟨by decide, by decide⟩
        · exact ih (fun z hz => hL z (by simp [hz])) c h

/-- The lazy group-1 loop consumes a whitespace-free day-class run whole. -/
theorem normGo_sepfree :
    ∀ (D : List Char), (∀ c ∈ D, dayClassChar c = true ∧ isWs c = false) →
    ∀ (acc T : List Char) (hv mv : Nat),
      timeTailMain (dropWs T) = some (hv, mv) →
      acc ≠ [] ∨ D ≠ [] →
      normGo acc (D ++ ' ' :: T) = some (acc.reverse ++ D, hv, mv) := by
  intro D
  induction D with
  | nil =>
    intro _ acc T hv mv hT hne
    have hacc : acc ≠ [] := by
      rcases hne with h | h
      · exact h
      · exact absurd rfl h
    have he : acc.isEmpty = false := by
      cases acc with
      | nil => exact absurd rfl hacc
      | cons z zs => rfl
    have hre : restMatch (' ' :: T) = some (hv, mv) := by
      show (if isWs ' ' = true then timeTailMain (dropWs (' ' :: T)) else none) =
        some (hv, mv)
      rw [if_pos (by decide)]
      have hdw : dropWs (' ' :: T) = dropWs T := by
        unfold dropWs
        rw [List.dropWhile_cons_of_pos (by decide)]
      rw [hdw]
      exact hT
    rw [List.nil_append, normGo, he]
    simp only [Bool.false_eq_true, if_false, hre, List.append_nil]
  | cons c D2 ih =>
    intro hD acc T hv mv hT hne
    have hc := hD c (List.mem_cons_self c D2)
    have hrm : restMatch (c :: (D2 ++ ' ' :: T)) = none := by
      show (if isWs c = true then timeTailMain (dropWs (c :: (D2 ++ ' ' :: T)))
        else none) = none
      rw [if_neg (by simp [hc.2])]
    rw [List.cons_append, normGo]
    have hscrut : (if acc.isEmpty = true then none
        else restMatch (c :: (D2 ++ ' ' :: T))) = (none : Option (Nat × Nat)) := by
      by_cases ha : acc.isEmpty = true
      · rw [if_pos ha]
      · rw [if_neg ha]; exact hrm
    rw [hscrut]
    simp only [hc.1, if_true]
    rw [ih (fun z hz => hD z (List.mem_cons_of_mem c hz)) (c :: acc) T hv mv hT
      (Or.inl (by simp))]
    simp [List.append_assoc]

theorem splitSepsGo_no_sep :
    ∀ (x : List Char), (∀ c ∈ x, isSep c = false) →
    ∀ (cur rest : List Char),
      splitSepsGo (x ++ rest) cur false = splitSepsGo rest (x.reverse ++ cur) false := by
  intro x
  induction x with
  | nil => intro _ cur rest; simp
  | cons c x2 ih =>
    intro hx cur rest
    rw [List.cons_append, splitSepsGo]
    rw [hx c (List.mem_cons_self c x2)]
    simp only [Bool.false_eq_true, if_false]
    rw [ih (fun z hz => hx z (List.mem_cons_of_mem c hz)) (c :: cur) rest]
    simp [List.append_assoc]

theorem splitSepsGo_true_false {c : Char} (hc : isSep c = false)
    (r cur : List Char) :
    splitSepsGo (c :: r) cur true = splitSepsGo (c :: r) cur false := by
  rw [splitSepsGo, splitSepsGo, hc]
  simp only [Bool.false_eq_true, if_false]

theorem splitSeps_inter :
    ∀ (L : List (List Char)),
      (∀ x ∈ L, x ≠ [] ∧ ∀ c ∈ x, isSep c = false) → L ≠ [] →
      splitSeps (intercalateChar '/' L) = L := by
  intro L
  induction L with
  | nil => intro _ h; exact absurd rfl h
  | cons x xs ih =>
    intro hL _
    cases xs with
    | nil =>
      show splitSepsGo (intercalateChar '/' [x]) [] false = [x]
      rw [show intercalateChar '/' [x] = x from rfl]
      have h1 := splitSepsGo_no_sep x (hL x (by simp)).2 [] []
      rw [List.append_nil] at h1
      rw [h1, splitSepsGo]
      simp
    | cons y ys =>
      show splitSepsGo (intercalateChar '/' (x :: y :: ys)) [] false = x :: y :: ys
      rw [show intercalateChar '/' (x :: y :: ys) =
          x ++ '/' :: intercalateChar '/' (y :: ys) from rfl]
      rw [splitSepsGo_no_sep x (hL x (by simp)).2 []
        ('/' :: intercalateChar '/' (y :: ys))]
      rw [splitSepsGo]
      rw [show isSep '/' = true from rfl]
      simp only [if_true, Bool.false_eq_true, if_false, List.append_nil,
        List.reverse_reverse]
      obtain ⟨t, ht⟩ := inter_cons_eq y ys
      have hy := hL y (by simp)
      obtain ⟨c0, y2, hy0⟩ : ∃ c0 y2, y = c0 :: y2 := by
        cases hyy : y with
        | nil => exact absurd hyy hy.1
        | cons a as => exact ⟨a, as, rfl⟩
      have hc0 : isSep c0 = false := hy.2 c0 (by rw [hy0]; exact List.mem_cons_self c0 y2)
      have hstep : splitSepsGo (intercalateChar '/' (y :: ys)) [] true =
          splitSepsGo (intercalateChar '/' (y :: ys)) [] false := by
        rw [ht, hy0, List.cons_append]
        exact splitSepsGo_true_false hc0 _ []
      rw [hstep]
      rw [show splitSepsGo (intercalateChar '/' (y :: ys)) [] false =
          splitSeps (intercalateChar '/' (y :: ys)) from rfl]
      rw [ih (fun z hz => hL z (by simp [hz])) (by simp)]

theorem filterMap_self {α : Type} (f : α → Option α) :
    ∀ (L : List α), (∀ x ∈ L, f x = some x) → L.filterMap f = L := by
  intro L
  induction L with
  | nil => intro _; rfl
  | cons x xs ih =>
    intro h
    rw [List.filterMap_cons, h x (by simp), ih (fun z hz => h z (by simp [hz]))]

theorem renderDisplay_sfx (h24 : Nat) :
    (renderDisplay h24).2 = (if 12 ≤ h24 then "PM".data else "AM".data) := by
  unfold renderDisplay
  split_ifs <;> first | rfl | omega

theorem renderDisplay_dh (h24 : Nat) (h : h24 ≤ 111) :
    1 ≤ (renderDisplay h24).1 ∧ (renderDisplay h24).1 ≤ 99 := by
  unfold renderDisplay
  split_ifs <;> (dsimp only) <;> omega

/-- Re-interpreting the displayed hour against the rendered suffix restores
a 24-hour value with the same display; `h24 = 24` is the one value where the
hour itself is not restored (it comes back as 12), but the rendering agrees. -/
theorem roundHour (h24 : Nat) (h : h24 ≤ 111) :
    renderDisplay (normHour24 (some (decide (12 ≤ h24))) (renderDisplay h24).1) =
      renderDisplay h24 := by
  by_cases h12 : 12 ≤ h24
  · rw [decide_eq_true h12]
    by_cases he : h24 = 12
    · subst he; decide
    · by_cases hf : h24 = 24
      · subst hf; decide
      · have e1 : renderDisplay h24 = (h24 - 12, "PM".data) := by
          unfold renderDisplay
          rw [if_neg (by omega), if_neg (by omega), if_neg (by omega)]
        rw [e1]
        have e2 : normHour24 (some true) (h24 - 12) = h24 := by
          show (if h24 - 12 ≠ 12 then h24 - 12 + 12 else h24 - 12) = h24
          rw [if_pos (by omega)]
          omega
        rw [show ((h24 - 12, "PM".data) : Nat × List Char).1 = h24 - 12 from rfl,
          e2, e1]
  · rw [decide_eq_false h12]
    by_cases h0 : h24 = 0
    · subst h0; decide
    · have e1 : renderDisplay h24 = (h24, "AM".data) := by
        unfold renderDisplay
        rw [if_neg h0, if_pos (by omega)]
      rw [e1]
      have e2 : normHour24 (some false) h24 = h24 := by
        show (if h24 = 12 then 0 else h24) = h24
        rw [if_neg (by omega)]
      rw [show ((h24, "AM".data) : Nat × List Char).1 = h24 from rfl, e2, e1]

/-- Re-running the extraction stage on a rendered canonical string succeeds,
recovering the same abbreviation list and minute; the hour comes back as the
re-interpretation of the displayed hour against the rendered AM/PM suffix. -/
theorem normCore_canonical {p : NormParts}
    (h1 : p.abbrevs ≠ []) (h2 : ∀ x ∈ p.abbrevs, x ∈ dayAbbrevs)
    (h3 : p.minute ≤ 99) (h4 : p.hour24 ≤ 111) :
    normCore ⟨renderCanonical p⟩ =
      some ⟨p.abbrevs,
        normHour24 (some (decide (12 ≤ p.hour24))) (renderDisplay p.hour24).1,
        p.minute⟩ := by
  obtain ⟨dh1, dh2⟩ := renderDisplay_dh p.hour24 h4
  have hsfx : (renderDisplay p.hour24).2 = "AM".data ∨
      (renderDisplay p.hour24).2 = "PM".data := by
    rw [renderDisplay_sfx]
    split_ifs <;> simp
  obtain ⟨x, xs, hA⟩ : ∃ x xs, p.abbrevs = x :: xs := by
    cases hAA : p.abbrevs with
    | nil => exact absurd hAA h1
    | cons a as => exact ⟨a, as, rfl⟩
  have hxmem : x ∈ dayAbbrevs := h2 x (by rw [hA]; exact List.mem_cons_self x xs)
  obtain ⟨t, ht⟩ := inter_cons_eq x xs
  have hhd := dayAbbrevs_head x hxmem
  have hxne : x ≠ [] := by
    intro hxe
    rw [hxe] at hhd
    exact absurd hhd.1 (by simp)
  have hDne : intercalateChar '/' p.abbrevs ≠ [] := by
    rw [hA, ht]
    simp [hxne]
  have hTT := timeTail_render (renderDisplay p.hour24).1 p.minute dh2 h3
    (renderDisplay p.hour24).2 hsfx
  have hrc : renderCanonical p = intercalateChar '/' p.abbrevs ++
      ' ' :: (renderNat (renderDisplay p.hour24).1 ++
        ':' :: (pad2 p.minute ++ ' ' :: (renderDisplay p.hour24).2)) := rfl
  obtain ⟨b, hb⟩ : ∃ b, renderCanonical p = x.headD ' ' :: b := by
    refine ⟨x.tail ++ (t ++ ' ' :: (renderNat (renderDisplay p.hour24).1 ++
      ':' :: (pad2 p.minute ++ ' ' :: (renderDisplay p.hour24).2))), ?_⟩
    rw [hrc, hA, ht]
    conv_lhs => rw [← hhd.1]
    simp [List.append_assoc]
  have hrevhead : ((renderCanonical p).reverse).head? = some 'M' := by
    rcases hsfx with hs | hs
    · rw [hrc, hs, show ("AM".data : List Char) = ['A', 'M'] from rfl]
      simp [List.reverse_append]
    · rw [hrc, hs, show ("PM".data : List Char) = ['P', 'M'] from rfl]
      simp [List.reverse_append]
  obtain ⟨rv, hrv⟩ : ∃ rv, (renderCanonical p).reverse = 'M' :: rv := by
    cases hr : (renderCanonical p).reverse with
    | nil => rw [hr] at hrevhead; exact absurd hrevhead (by simp)
    | cons z zs =>
      rw [hr] at hrevhead
      simp only [List.head?_cons, Option.some.injEq] at hrevhead
      subst hrevhead
      exact ⟨zs, rfl⟩
  have hstrip : pyStrip (renderCanonical p) = renderCanonical p := by
    unfold pyStrip
    rw [hb, List.dropWhile_cons_of_neg (by rw [hhd.2]; simp), ← hb]
    rw [hrv, List.dropWhile_cons_of_neg (by decide), ← hrv, List.reverse_reverse]
  have hmatch : normMatch (intercalateChar '/' p.abbrevs ++
      ' ' :: (renderNat (renderDisplay p.hour24).1 ++
        ':' :: (pad2 p.minute ++ ' ' :: (renderDisplay p.hour24).2))) =
      some (intercalateChar '/' p.abbrevs,
        (renderDisplay p.hour24).1, p.minute) := by
    unfold normMatch
    rw [normGo_sepfree _ (inter_chars p.abbrevs h2) [] _ _ _
      (by rw [hTT.2]; exact hTT.1) (Or.inr hDne)]
    simp
  have htok : normTokens (intercalateChar '/' p.abbrevs) = p.abbrevs := by
    unfold normTokens
    rw [splitSeps_inter p.abbrevs (fun z hz => dayAbbrevs_noSep z (h2 z hz)) h1]
    exact filterMap_self _ p.abbrevs (fun z hz => abbrev_lookup z (h2 z hz))
  have hamp : searchAmPm (intercalateChar '/' p.abbrevs ++
      ' ' :: (renderNat (renderDisplay p.hour24).1 ++
        ':' :: (pad2 p.minute ++ ' ' :: (renderDisplay p.hour24).2))) =
      some (decide (12 ≤ p.hour24)) := by
    rw [searchAmPm_inter p.abbrevs h2, searchAmPm_skip1 ' ' (by decide),
      searchAmPm_time _ _ dh2 h3, renderDisplay_sfx]
    by_cases h12 : 12 ≤ p.hour24
    · rw [if_pos h12, decide_eq_true h12]
      decide
    · rw [if_neg h12, decide_eq_false h12]
      decide
  unfold normCore
  rw [show (String.mk (renderCanonical p)).data = renderCanonical p from rfl]
  rw [hstrip]
  rw [if_neg (by rw [hb]; simp)]
  rw [hrc, hmatch]
  dsimp only
  rw [htok]
  rw [if_neg (by rw [hA]; simp)]
  rw [hamp]

/-- Claim C7: the normalizer is idempotent.  When extraction fails,
`normalize_schedule` returns its input and the round-trip is trivial; when it
succeeds, re-normalizing the rendered canonical string reproduces it, so
`normalize_schedule (normalize_schedule r) = normalize_schedule r` holds for
every input `r` (in particular for every `r` on which normalization
succeeds), and every canonical string the normalizer produces is a fixed
point. -/
theorem C7_normalize_idempotent (r : String) :
    normalize_schedule (normalize_schedule r) = normalize_schedule r := by
  cases hp : normCore r with
  | none =>
    have h1 : normalize_schedule r = r := by
      unfold normalize_schedule
      rw [hp]
    rw [h1]
    exact h1
  | some p =>
    obtain ⟨hne, hmem, hmin, hhr⟩ := normCore_inv hp
    have h1 : normalize_schedule r = ⟨renderCanonical p⟩ := by
      unfold normalize_schedule
      rw [hp]
    rw [h1]
    unfold normalize_schedule
    rw [normCore_canonical hne hmem hmin hhr]
    dsimp only
    have h3 : renderCanonical ⟨p.abbrevs,
        normHour24 (some (decide (12 ≤ p.hour24))) (renderDisplay p.hour24).1,
        p.minute⟩ = renderCanonical p := by
      unfold renderCanonical
      dsimp only
      rw [roundHour p.hour24 hhr]
    rw [h3]

/-! ## Claim C10: canonical strings parse as weekly records -/

theorem inter_eq_slashCat : ∀ (x : List Char) (ds : List (List Char)),
    intercalateChar '/' (x :: ds) = x ++ slashCat ds := by
  intro x ds
  induction ds generalizing x with
  | nil => simp [intercalateChar, slashCat]
  | cons y ys ih =>
    rw [show intercalateChar '/' (x :: y :: ys) =
        x ++ '/' :: intercalateChar '/' (y :: ys) from rfl, ih y]
    simp [slashCat]

theorem digit_cases {c : Char} (h : isAsciiDigit c = true) :
    c = '0' ∨ c = '1' ∨ c = '2' ∨ c = '3' ∨ c = '4' ∨
    c = '5' ∨ c = '6' ∨ c = '7' ∨ c = '8' ∨ c = '9' := by
  unfold isAsciiDigit at h
  simp only [Bool.and_eq_true, decide_eq_true_eq] at h
  obtain ⟨n, hn, hb1, hb2⟩ : ∃ n, c = Char.ofNat n ∧ 48 ≤ n ∧ n ≤ 57 :=
    ⟨c.toNat, (Char.ofNat_toNat c).symm, h.1, h.2⟩
  subst hn
  interval_cases n <;> simp

theorem digit_toLower {c : Char} (h : isAsciiDigit c = true) :
    c.toLower = c := by
  rcases digit_cases h with h | h | h | h | h | h | h | h | h | h <;>
    (subst h; decide)

theorem digit_ne_dash {c : Char} (h : isAsciiDigit c = true) : c ≠ '-' := by
  rcases digit_cases h with h | h | h | h | h | h | h | h | h | h <;>
    (subst h; decide)

theorem matchDay3_inv {cs : List Char} {d r : List Char}
    (h : matchDay3 cs = some (d, r)) :
    cs = d ++ r ∧ d ∈ dayAbbrevs := by
  unfold matchDay3 at h
  split at h
  · rename_i a b c rest
    split at h
    · rename_i hcon
      simp only [Option.some.injEq, Prod.mk.injEq] at h
      obtain ⟨h1, h2⟩ := h
      subst h1; subst h2
      exact ⟨rfl, by simpa using hcon⟩
    · exact absurd h (by simp)
  · exact absurd h (by simp)

theorem daysStar_inv : ∀ (n : Nat) (r : List Char)
    (acc toks : List (List Char)) (r2 : List Char), r.length ≤ n →
    daysStar r acc = some (toks, r2) →
    ∃ ds, (∀ x ∈ ds, x ∈ dayAbbrevs) ∧ toks = acc.reverse ++ ds ∧
      r = slashCat ds ++ r2 := by
  intro n
  induction n with
  | zero =>
    intro r acc toks r2 hlen h
    have hr : r = [] := List.length_eq_zero.mp (Nat.le_zero.mp hlen)
    subst hr
    rw [show daysStar [] acc = some (acc.reverse, []) from rfl] at h
    simp only [Option.some.injEq, Prod.mk.injEq] at h
    exact ⟨[], by simp, by simp [h.1], by simp [h.2, slashCat]⟩
  | succ n ih =>
    intro r acc toks r2 hlen h
    unfold daysStar at h
    split at h
    · rename_i a b c rest
      split at h
      · rename_i hcon
        obtain ⟨ds2, hmem, htoks, hr⟩ := ih rest ([a, b, c] :: acc) toks r2
          (by simp at hlen; omega) h
        refine ⟨[a, b, c] :: ds2, ?_, ?_, ?_⟩
        · intro x hx
          rcases List.mem_cons.mp hx with hx | hx
          · subst hx; simpa using hcon
          · exact hmem x hx
        · rw [htoks]
          simp
        · rw [hr]
          simp [slashCat]
      · exact absurd h (by simp)
    · exact absurd h (by simp)
    · rename_i hne
      simp only [Option.some.injEq, Prod.mk.injEq] at h
      exact ⟨[], by simp, by simp [h.1], by simp [h.2, slashCat]⟩

theorem canonAmPm_inv {r : List Char} {pm : Bool} (h : canonAmPm r = some pm) :
    r = (if pm then "PM".data else "AM".data) := by
  unfold canonAmPm at h
  split at h
  · simp only [Option.some.injEq] at h
    subst h
    rfl
  · simp only [Option.some.injEq] at h
    subst h
    rfl
  · exact absurd h (by simp)

theorem p1TimePart_two (a b c d : Char) (ha : isAsciiDigit a = true)
    (hb : isAsciiDigit b = true) (hc : isAsciiDigit c = true)
    (hd : isAsciiDigit d = true) (rest : List Char) {pmv : Bool}
    (hp : p1AmPm rest = some pmv) :
    p1TimePart (a :: b :: ':' :: c :: d :: rest) =
      some (10 * digitVal a + digitVal b, 10 * digitVal c + digitVal d, pmv) := by
  unfold p1TimePart
  split
  · rename_i heq
    simp only [List.cons.injEq, true_and] at heq
    obtain ⟨e1, e2, e3, e4, e5⟩ := heq
    subst e1; subst e2; subst e3; subst e4; subst e5
    simp [ha, hb, hc, hd, hp]
  · rename_i hno
    exact absurd rfl (hno a b c d rest)

theorem p1TimePart_one (a c d : Char) (ha : isAsciiDigit a = true)
    (hc : isAsciiDigit c = true) (hd : isAsciiDigit d = true)
    (rest : List Char) {pmv : Bool} (hp : p1AmPm rest = some pmv) :
    p1TimePart (a :: ':' :: c :: d :: rest) =
      some (digitVal a, 10 * digitVal c + digitVal d, pmv) := by
  have hcne : c ≠ ':' := by
    intro he; subst he; exact absurd hc (by decide)
  unfold p1TimePart
  split
  · rename_i heq
    simp only [List.cons.injEq] at heq
    exact absurd heq.2.2.1 hcne
  · simp only [Option.none_orElse]
    split
    · rename_i hcond
      simp only [ha, hc, hd, Bool.and_true, Bool.true_and] at hcond ⊢
      rw [hp]
      rfl
    · rename_i hcond
      simp [ha, hc, hd, hp] at hcond

/-- Inversion of ` \d{1,2}:\d{2} (AM|PM)$`: the canonical time tail
lowercases to something `p1TimePart` accepts with the same values, contains
no dash, ends in `M`, and starts with a digit. -/
theorem canonTime_inv {r : List Char} {hv mv : Nat} {pm : Bool}
    (hct : canonTime r = some (hv, mv, pm)) :
    p1TimePart (lowerStr r) = some (hv, mv, pm) ∧
    (∀ ch ∈ lowerStr r, ch ≠ '-') ∧
    (∃ rv, r.reverse = 'M' :: rv) ∧
    (∃ ch rest, r = ch :: rest ∧ isAsciiDigit ch = true) := by
  unfold canonTime at hct
  rcases orElse_eq_some hct with h1 | h1
  · split at h1
    · rename_i a b c d rest
      split at h1
      · rename_i hdig
        simp only [Bool.and_eq_true] at hdig
        obtain ⟨⟨⟨hda, hdb⟩, hdc⟩, hdd⟩ := hdig
        rw [Option.map_eq_some'] at h1
        obtain ⟨pm2, ham, hval⟩ := h1
        simp only [Prod.mk.injEq] at hval
        obtain ⟨e1, e2, e3⟩ := hval
        have hrest := canonAmPm_inv ham
        subst e3
        cases pm2 with
        | false =>
          rw [show (if false then "PM".data else "AM".data) = ['A', 'M']
            from rfl] at hrest
          subst hrest
          refine ⟨?_, ?_, ⟨'A' :: ' ' :: d :: c :: ':' :: b :: [a], rfl⟩,
            ⟨a, _, rfl, hda⟩⟩
          · show p1TimePart (a.toLower :: b.toLower :: ':' :: c.toLower ::
              d.toLower :: ' ' :: 'a' :: 'm' :: []) = some (hv, mv, false)
            rw [digit_toLower hda, digit_toLower hdb, digit_toLower hdc,
              digit_toLower hdd]
            rw [p1TimePart_two a b c d hda hdb hdc hdd _
              (show p1AmPm [' ', 'a', 'm'] = some false from by decide)]
            rw [e1, e2]
          · intro ch hch
            simp only [lowerStr, List.map_cons, List.map_nil, List.mem_cons,
              List.not_mem_nil, or_false] at hch
            rcases hch with h | h | h | h | h | h | h | h <;> subst h
            · rw [digit_toLower hda]; exact digit_ne_dash hda
            · rw [digit_toLower hdb]; exact digit_ne_dash hdb
            · decide
            · rw [digit_toLower hdc]; exact digit_ne_dash hdc
            · rw [digit_toLower hdd]; exact digit_ne_dash hdd
            · decide
            · decide
            · decide
        | true =>
          rw [show (if true then "PM".data else "AM".data) = ['P', 'M']
            from rfl] at hrest
          subst hrest
          refine ⟨?_, ?_, ⟨'P' :: ' ' :: d :: c :: ':' :: b :: [a], rfl⟩,
            ⟨a, _, rfl, hda⟩⟩
          · show p1TimePart (a.toLower :: b.toLower :: ':' :: c.toLower ::
              d.toLower :: ' ' :: 'p' :: 'm' :: []) = some (hv, mv, true)
            rw [digit_toLower hda, digit_toLower hdb, digit_toLower hdc,
              digit_toLower hdd]
            rw [p1TimePart_two a b c d hda hdb hdc hdd _
              (show p1AmPm [' ', 'p', 'm'] = some true from by decide)]
            rw [e1, e2]
          · intro ch hch
            simp only [lowerStr, List.map_cons, List.map_nil, List.mem_cons,
              List.not_mem_nil, or_false] at hch
            rcases hch with h | h | h | h | h | h | h | h <;> subst h
            · rw [digit_toLower hda]; exact digit_ne_dash hda
            · rw [digit_toLower hdb]; exact digit_ne_dash hdb
            · decide
            · rw [digit_toLower hdc]; exact digit_ne_dash hdc
            · rw [digit_toLower hdd]; exact digit_ne_dash hdd
            · decide
            · decide
            · decide
      · exact absurd h1 (by simp)
    · exact absurd h1 (by simp)
  · split at h1
    · rename_i a c d rest
      split at h1
      · rename_i hdig
        simp only [Bool.and_eq_true] at hdig
        obtain ⟨⟨hda, hdc⟩, hdd⟩ := hdig
        rw [Option.map_eq_some'] at h1
        obtain ⟨pm2, ham, hval⟩ := h1
        simp only [Prod.mk.injEq] at hval
        obtain ⟨e1, e2, e3⟩ := hval
        have hrest := canonAmPm_inv ham
        subst e3
        cases pm2 with
        | false =>
          rw [show (if false then "PM".data else "AM".data) = ['A', 'M']
            from rfl] at hrest
          subst hrest
          refine ⟨?_, ?_, ⟨'A' :: ' ' :: d :: c :: ':' :: [a], rfl⟩,
            ⟨a, _, rfl, hda⟩⟩
          · show p1TimePart (a.toLower :: ':' :: c.toLower ::
              d.toLower :: ' ' :: 'a' :: 'm' :: []) = some (hv, mv, false)
            rw [digit_toLower hda, digit_toLower hdc, digit_toLower hdd]
            rw [p1TimePart_one a c d hda hdc hdd _
              (show p1AmPm [' ', 'a', 'm'] = some false from by decide)]
            rw [e1, e2]
          · intro ch hch
            simp only [lowerStr, List.map_cons, List.map_nil, List.mem_cons,
              List.not_mem_nil, or_false] at hch
            rcases hch with h | h | h | h | h | h | h <;> subst h
            · rw [digit_toLower hda]; exact digit_ne_dash hda
            · decide
            · rw [digit_toLower hdc]; exact digit_ne_dash hdc
            · rw [digit_toLower hdd]; exact digit_ne_dash hdd
            · decide
            · decide
            · decide
        | true =>
          rw [show (if true then "PM".data else "AM".data) = ['P', 'M']
            from rfl] at hrest
          subst hrest
          refine ⟨?_, ?_, ⟨'P' :: ' ' :: d :: c :: ':' :: [a], rfl⟩,
            ⟨a, _, rfl, hda⟩⟩
          · show p1TimePart (a.toLower :: ':' :: c.toLower ::
              d.toLower :: ' ' :: 'p' :: 'm' :: []) = some (hv, mv, true)
            rw [digit_toLower hda, digit_toLower hdc, digit_toLower hdd]
            rw [p1TimePart_one a c d hda hdc hdd _
              (show p1AmPm [' ', 'p', 'm'] = some true from by decide)]
            rw [e1, e2]
          · intro ch hch
            simp only [lowerStr, List.map_cons, List.map_nil, List.mem_cons,
              List.not_mem_nil, or_false] at hch
            rcases hch with h | h | h | h | h | h | h <;> subst h
            · rw [digit_toLower hda]; exact digit_ne_dash hda
            · decide
            · rw [digit_toLower hdc]; exact digit_ne_dash hdc
            · rw [digit_toLower hdd]; exact digit_ne_dash hdd
            · decide
            · decide
            · decide
      · exact absurd h1 (by simp)
    · exact absurd h1 (by simp)

/-- Inversion of the whole canonical regex: an accepted string is the
slash-joined day tokens, a space, then a time tail accepted by
`canonTime`. -/
theorem canonicalParse_inv {cs : List Char} {toks : List (List Char)}
    {hv mv : Nat} {pm : Bool}
    (hcp : canonicalParse cs = some (toks, hv, mv, pm)) :
    ∃ r3, cs = intercalateChar '/' toks ++ ' ' :: r3 ∧ toks ≠ [] ∧
      (∀ x ∈ toks, x ∈ dayAbbrevs) ∧ canonTime r3 = some (hv, mv, pm) := by
  unfold canonicalParse at hcp
  cases hm1 : matchDay3 cs with
  | none => rw [hm1] at hcp; simp at hcp
  | some pr =>
    obtain ⟨d1, r1⟩ := pr
    rw [hm1] at hcp
    dsimp only at hcp
    obtain ⟨hcs, hd1⟩ := matchDay3_inv hm1
    cases hm2 : daysStar r1 [d1] with
    | none => rw [hm2] at hcp; simp at hcp
    | some pr2 =>
      obtain ⟨toks2, r2⟩ := pr2
      rw [hm2] at hcp
      obtain ⟨ds, hds, htoks, hr1⟩ :=
        daysStar_inv r1.length r1 [d1] toks2 r2 (Nat.le_refl _) hm2
      dsimp only at hcp
      split at hcp
      · rename_i r3
        rw [Option.map_eq_some'] at hcp
        obtain ⟨x, hx1, hx2⟩ := hcp
        simp only [Prod.mk.injEq] at hx2
        obtain ⟨ht2, hx3⟩ := hx2
        subst ht2
        subst hx3
        simp only [List.reverse_cons, List.reverse_nil, List.nil_append,
          List.singleton_append] at htoks
        refine ⟨r3, ?_, ?_, ?_, hx1⟩
        · rw [htoks, inter_eq_slashCat, hcs, hr1]
          simp [List.append_assoc]
        · rw [htoks]; simp
        · intro z hz
          rw [htoks] at hz
          rcases List.mem_cons.mp hz with hz | hz
          · subst hz; exact hd1
          · exact hds z hz
      · exact absurd hcp (by simp)

theorem mem_of_mem_dropWhile (p : Char → Bool) {c : Char} :
    ∀ {l : List Char}, c ∈ l.dropWhile p → c ∈ l := by
  intro l
  induction l with
  | nil => intro h; simpa using h
  | cons x xs ih =>
    intro h
    rw [List.dropWhile_cons] at h
    split at h
    · exact List.mem_cons_of_mem x (ih h)
    · exact h

theorem mem_of_mem_dropWs {c : Char} {l : List Char} (h : c ∈ dropWs l) :
    c ∈ l := mem_of_mem_dropWhile isWs h

theorem splitSlashGo_no_slash :
    ∀ (x : List Char), (∀ c ∈ x, c ≠ '/') →
    ∀ (cur rest : List Char),
      splitSlashGo (x ++ rest) cur = splitSlashGo rest (x.reverse ++ cur) := by
  intro x
  induction x with
  | nil => intro _ cur rest; simp
  | cons c x2 ih =>
    intro hx cur rest
    rw [List.cons_append, splitSlashGo, if_neg (hx c (List.mem_cons_self c x2))]
    rw [ih (fun z hz => hx z (List.mem_cons_of_mem c hz)) (c :: cur) rest]
    simp [List.append_assoc]

theorem splitSlash_inter :
    ∀ (L : List (List Char)), (∀ x ∈ L, ∀ c ∈ x, c ≠ '/') → L ≠ [] →
      splitSlash (intercalateChar '/' L) = L := by
  intro L
  induction L with
  | nil => intro _ h; exact absurd rfl h
  | cons x xs ih =>
    intro hL _
    cases xs with
    | nil =>
      show splitSlashGo (intercalateChar '/' [x]) [] = [x]
      rw [show intercalateChar '/' [x] = x from rfl]
      have h1 := splitSlashGo_no_slash x (hL x (by simp)) [] []
      rw [List.append_nil] at h1
      rw [h1, splitSlashGo]
      simp
    | cons y ys =>
      show splitSlashGo (intercalateChar '/' (x :: y :: ys)) [] = x :: y :: ys
      rw [show intercalateChar '/' (x :: y :: ys) =
          x ++ '/' :: intercalateChar '/' (y :: ys) from rfl]
      rw [splitSlashGo_no_slash x (hL x (by simp)) []
        ('/' :: intercalateChar '/' (y :: ys))]
      rw [splitSlashGo, if_pos rfl]
      simp only [List.append_nil, List.reverse_reverse]
      rw [show splitSlashGo (intercalateChar '/' (y :: ys)) [] =
          splitSlash (intercalateChar '/' (y :: ys)) from rfl]
      rw [ih (fun z hz => hL z (by simp [hz])) (by simp)]

theorem lowerStr_append (a b : List Char) :
    lowerStr (a ++ b) = lowerStr a ++ lowerStr b := List.map_append _ a b

theorem lowerStr_cons (c : Char) (l : List Char) :
    lowerStr (c :: l) = c.toLower :: lowerStr l := rfl

theorem lowerStr_inter : ∀ (L : List (List Char)),
    lowerStr (intercalateChar '/' L) = intercalateChar '/' (L.map lowerStr) := by
  intro L
  induction L with
  | nil => rfl
  | cons x xs ih =>
    cases xs with
    | nil => rfl
    | cons y ys =>
      rw [show intercalateChar '/' (x :: y :: ys) =
          x ++ '/' :: intercalateChar '/' (y :: ys) from rfl]
      rw [lowerStr_append, lowerStr_cons, ih,
        show ('/' : Char).toLower = '/' from by decide]
      rfl

/-- Per-token facts about the lowercased abbreviations, all decidable. -/
theorem abbrev_parse_lookup : ∀ t ∈ dayAbbrevs,
    (DAYS_MAP.lookup (lowerStr t)).map dayNameFromNumber =
      some (dayNameFromNumber ((DAYS_MAP.lookup (lowerStr t)).getD 0)) ∧
    pyStrip (lowerStr t) = lowerStr t ∧
    lowerStr t ≠ [] ∧
    (∀ c ∈ lowerStr t, dazClass c = true ∧ c ≠ '-' ∧ c ≠ '/') := by decide

theorem inter_low_chars : ∀ (L : List (List Char)),
    (∀ x ∈ L, x ∈ dayAbbrevs) →
    ∀ c ∈ intercalateChar '/' (L.map lowerStr),
      dazClass c = true ∧ c ≠ '-' := by
  intro L
  induction L with
  | nil => intro _ c hc; simp [intercalateChar] at hc
  | cons x xs ih =>
    intro hL c hc
    cases xs with
    | nil =>
      have h4 := (abbrev_parse_lookup x (hL x (by simp))).2.2.2 c hc
      exact ⟨h4.1, h4.2.1⟩
    | cons y ys =>
      rw [show ((x :: y :: ys).map lowerStr) =
          lowerStr x :: (y :: ys).map lowerStr from rfl] at hc
      rw [show intercalateChar '/' (lowerStr x :: (y :: ys).map lowerStr) =
          lowerStr x ++ '/' :: intercalateChar '/' ((y :: ys).map lowerStr)
          from ?_] at hc
      · rcases List.mem_append.mp hc with h | h
        · have h4 := (abbrev_parse_lookup x (hL x (by simp))).2.2.2 c h
          exact ⟨h4.1, h4.2.1⟩
        · rcases List.mem_cons.mp h with h | h
          · subst h; exact ⟨by decide, by decide⟩
          · exact ih (fun z hz => hL z (by simp [hz])) c h
      · cases hys : (y :: ys).map lowerStr with
        | nil => simp at hys
        | cons a as => rfl

theorem takeWhile_run (p : Char → Bool) :
    ∀ (xs : List Char), (∀ x ∈ xs, p x = true) →
    ∀ (y : Char), p y = false → ∀ (rest : List Char),
      (xs ++ y :: rest).takeWhile p = xs ∧
      (xs ++ y :: rest).dropWhile p = y :: rest := by
  intro xs
  induction xs with
  | nil =>
    intro _ y hy rest
    constructor
    · rw [List.nil_append, List.takeWhile_cons_of_neg (by simp [hy])]
    · rw [List.nil_append, List.dropWhile_cons_of_neg (by simp [hy])]
  | cons x xs2 ih =>
    intro hxs y hy rest
    have hx := hxs x (List.mem_cons_self x xs2)
    obtain ⟨iht, ihd⟩ := ih (fun z hz => hxs z (List.mem_cons_of_mem x hz)) y hy rest
    constructor
    · rw [List.cons_append, List.takeWhile_cons_of_pos (by simp [hx]), iht]
    · rw [List.cons_append, List.dropWhile_cons_of_pos (by simp [hx]), ihd]

theorem dayRunThen_some {α : Type} {cs : List Char} {k : List Char → Option α}
    {d : List Char} {v : α} (h : dayRunThen cs k = some (d, v)) :
    k (dropWs (cs.dropWhile dazClass)) = some v := by
  unfold dayRunThen at h
  dsimp only at h
  split at h
  · exact absurd h (by simp)
  · split at h
    · split at h
      · rw [Option.map_eq_some'] at h
        obtain ⟨x, hx1, hx2⟩ := h
        simp only [Prod.mk.injEq] at hx2
        rw [← hx2.2]
        exact hx1
      · exact absurd h (by simp)
    · exact absurd h (by simp)

/-- Successful run of `([a-z/]+)\s+` at the start of a string of the right
shape. -/
theorem dayRunThen_eq {α : Type} (xs : List Char)
    (hxs : ∀ x ∈ xs, dazClass x = true) (hne : xs ≠ []) (y : Char)
    (hy : dazClass y = false) (hyw : isWs y = true) (rest : List Char)
    (k : List Char → Option α) :
    dayRunThen (xs ++ y :: rest) k =
      (k (dropWs (y :: rest))).map (fun x => (xs, x)) := by
  obtain ⟨htw, hdw⟩ := takeWhile_run dazClass xs hxs y hy rest
  have hxe : xs.isEmpty = false := by
    cases xs with
    | nil => exact absurd rfl hne
    | cons a as => rfl
  unfold dayRunThen
  dsimp only
  rw [htw, hdw, hxe]
  simp only [Bool.false_eq_true, if_false, hyw, if_true]

theorem p0AfterStart_some_dash {r : List Char} {v : Nat × Nat}
    (h : p0AfterStart r = some v) : '-' ∈ r := by
  unfold p0AfterStart at h
  split at h
  · rename_i r2 heq
    exact mem_of_mem_dropWs (by rw [heq]; exact List.mem_cons_self _ _)
  · exact absurd h (by simp)

theorem p0TimePart_some_dash {r : List Char} {v : (Nat × Nat) × (Nat × Nat)}
    (h : p0TimePart r = some v) : '-' ∈ r := by
  unfold p0TimePart at h
  rcases orElse_eq_some h with h1 | h1
  · split at h1
    · rename_i a b c d rest
      split at h1
      · rw [Option.map_eq_some'] at h1
        obtain ⟨e, he, -⟩ := h1
        have hd := p0AfterStart_some_dash he
        simp [hd]
      · exact absurd h1 (by simp)
    · exact absurd h1 (by simp)
  · split at h1
    · rename_i a c d rest
      split at h1
      · rw [Option.map_eq_some'] at h1
        obtain ⟨e, he, -⟩ := h1
        have hd := p0AfterStart_some_dash he
        simp [hd]
      · exact absurd h1 (by simp)
    · exact absurd h1 (by simp)

theorem p0At_some_dash {cs : List Char} {v} (h : p0At cs = some v) :
    '-' ∈ cs := by
  obtain ⟨d, w, hdw⟩ : ∃ d w, v = (d, w) := ⟨v.1, v.2, rfl⟩
  subst hdw
  have h2 := dayRunThen_some h
  have h3 := p0TimePart_some_dash h2
  exact mem_of_mem_dropWhile dazClass (mem_of_mem_dropWs h3)

theorem searchAt_p0_none : ∀ (l : List Char), '-' ∉ l →
    searchAt p0At l = none := by
  intro l
  induction l with
  | nil => intro _; rfl
  | cons c rest ih =>
    intro h
    cases hp : p0At (c :: rest) with
    | some v => exact absurd (p0At_some_dash hp) h
    | none =>
      rw [searchAt, hp, ih (fun hm => h (List.mem_cons_of_mem c hm))]
      rfl

theorem searchAt_cons_some {α : Type} (f : List Char → Option α) (c : Char)
    (rest : List Char) {v : α} (h : f (c :: rest) = some v) :
    searchAt f (c :: rest) = some v := by
  rw [searchAt, h]
  rfl

theorem filterMap_map_all_some {α β γ : Type} (f : β → Option γ)
    (g : α → β) (h : α → γ) :
    ∀ (L : List α), (∀ t ∈ L, f (g t) = some (h t)) →
      (L.map g).filterMap f = L.map h := by
  intro L
  induction L with
  | nil => intro _; rfl
  | cons x xs ih =>
    intro hL
    rw [List.map_cons, List.filterMap_cons, hL x (by simp), List.map_cons,
      ih (fun z hz => hL z (by simp [hz]))]

theorem parseDays_canonical (toks : List (List Char))
    (htoks : ∀ x ∈ toks, x ∈ dayAbbrevs) (hne : toks ≠ []) :
    parseDays (intercalateChar '/' (toks.map lowerStr)) =
      toks.map (fun t => dayNameFromNumber ((DAYS_MAP.lookup (lowerStr t)).getD 0)) := by
  unfold parseDays
  rw [splitSlash_inter (toks.map lowerStr)
    (fun x hx => by
      obtain ⟨t, ht, hxt⟩ := List.mem_map.mp hx
      subst hxt
      exact fun c hc => ((abbrev_parse_lookup t (htoks t ht)).2.2.2 c hc).2.2)
    (by simp [hne])]
  rw [show (toks.map lowerStr).map pyStrip = toks.map lowerStr from by
    rw [List.map_map]
    exact List.map_congr_left (fun t ht =>
      (abbrev_parse_lookup t (htoks t ht)).2.1)]
  exact filterMap_map_all_some _ lowerStr _ toks
    (fun t ht => (abbrev_parse_lookup t (htoks t ht)).1)

/-- Claim C10: every string accepted by the input-validation layer (i.e.
whose normalized form matches `CANONICAL_RE`, here witnessed by a successful
`canonicalParse` of `normalize_schedule s`) parses as a `weekly_recurring`
record - the custom fallback is unreachable - and `pattern.days` is exactly
the in-order full-name expansion (via `DAYS_MAP`) of the canonical day
tokens. -/
theorem C10_validated_strings_parse (today : PyDate) (s : String)
    (toks : List (List Char)) (hv mv : Nat) (pm : Bool)
    (hc : canonicalParse (normalize_schedule s).data = some (toks, hv, mv, pm)) :
    (parse_schedule_string today (normalize_schedule s)).type =
      "weekly_recurring" ∧
    (parse_schedule_string today (normalize_schedule s)).pattern.days =
      toks.map (fun t => dayNameFromNumber ((DAYS_MAP.lookup (lowerStr t)).getD 0)) := by
  obtain ⟨r3, hcs, htne, htokmem, hct⟩ := canonicalParse_inv hc
  obtain ⟨hp1, hnodash3, ⟨rv3, hrev3⟩, dch, drest, hr3head, hdigit⟩ :=
    canonTime_inv hct
  obtain ⟨t1, ts, hT⟩ : ∃ t1 ts, toks = t1 :: ts := by
    cases hTT : toks with
    | nil => exact absurd hTT htne
    | cons a as => exact ⟨a, as, rfl⟩
  have ht1 : t1 ∈ dayAbbrevs :=
    htokmem t1 (by rw [hT]; exact List.mem_cons_self t1 ts)
  obtain ⟨t2, ht2⟩ := inter_cons_eq t1 ts
  have hhd := dayAbbrevs_head t1 ht1
  obtain ⟨b, hb⟩ : ∃ b, (normalize_schedule s).data = t1.headD ' ' :: b := by
    refine ⟨t1.tail ++ (t2 ++ ' ' :: r3), ?_⟩
    rw [hcs, hT, ht2]
    conv_lhs => rw [← hhd.1]
    simp [List.append_assoc]
  obtain ⟨rv, hrv⟩ : ∃ rv, ((normalize_schedule s).data).reverse = 'M' :: rv := by
    refine ⟨rv3 ++ ' ' :: (intercalateChar '/' toks).reverse, ?_⟩
    rw [hcs, List.reverse_append, List.reverse_cons, hrev3]
    simp
  have hstrip : pyStrip (normalize_schedule s).data =
      (normalize_schedule s).data := by
    unfold pyStrip
    rw [hb, List.dropWhile_cons_of_neg (by rw [hhd.2]; simp), ← hb]
    rw [hrv, List.dropWhile_cons_of_neg (by decide), ← hrv, List.reverse_reverse]
  have hlow : lowered (normalize_schedule s) =
      intercalateChar '/' (toks.map lowerStr) ++ ' ' :: lowerStr r3 := by
    unfold lowered
    rw [hstrip, hcs, lowerStr_append, lowerStr_inter, lowerStr_cons,
      show (' ' : Char).toLower = ' ' from by decide]
  have hnodash : '-' ∉ lowered (normalize_schedule s) := by
    rw [hlow]
    intro hmem
    rcases List.mem_append.mp hmem with h | h
    · exact absurd rfl (inter_low_chars toks htokmem '-' h).2
    · rcases List.mem_cons.mp h with h | h
      · exact absurd h (by decide)
      · exact absurd rfl (hnodash3 '-' h)
  have hlowchars : ∀ x ∈ intercalateChar '/' (toks.map lowerStr),
      dazClass x = true :=
    fun x hx => (inter_low_chars toks htokmem x hx).1
  have hlowne : intercalateChar '/' (toks.map lowerStr) ≠ [] := by
    rw [hT, show ((t1 :: ts).map lowerStr) = lowerStr t1 :: ts.map lowerStr
      from rfl]
    obtain ⟨t3, ht3⟩ := inter_cons_eq (lowerStr t1) (ts.map lowerStr)
    rw [ht3]
    have h5 := (abbrev_parse_lookup t1 ht1).2.2.1
    simp [h5]
  have hdrop : dropWs (' ' :: lowerStr r3) = lowerStr r3 := by
    unfold dropWs
    rw [List.dropWhile_cons_of_pos (by decide), hr3head, lowerStr_cons,
      digit_toLower hdigit,
      List.dropWhile_cons_of_neg (by rw [digit_not_ws hdigit]; simp)]
  have hp1at : p1At (intercalateChar '/' (toks.map lowerStr) ++
      ' ' :: lowerStr r3) =
      some (intercalateChar '/' (toks.map lowerStr), hv, mv, pm) := by
    unfold p1At
    rw [dayRunThen_eq _ hlowchars hlowne ' ' (by decide) (by decide) _ _,
      hdrop, hp1]
    rfl
  have hsearch : searchAt p1At (lowered (normalize_schedule s)) =
      some (intercalateChar '/' (toks.map lowerStr), hv, mv, pm) := by
    rw [hlow]
    cases hsplit : intercalateChar '/' (toks.map lowerStr) ++
        ' ' :: lowerStr r3 with
    | nil => exact absurd hsplit (by simp)
    | cons c0 tail0 =>
      rw [hsplit] at hp1at
      exact searchAt_cons_some p1At c0 tail0 hp1at
  have hcore : parseCore (normalize_schedule s) =
      .weekly (toks.map (fun t =>
          dayNameFromNumber ((DAYS_MAP.lookup (lowerStr t)).getD 0)))
        (to24h hv pm) mv 60 := by
    unfold parseCore
    rw [hstrip, if_neg (by rw [hb]; simp), searchAt_p0_none _ hnodash]
    dsimp only
    rw [hsearch]
    dsimp only
    rw [hlow, parseDays_canonical toks htokmem htne]
    rw [if_neg (by rw [hT]; simp)]
  unfold parse_schedule_string
  rw [hcore]
  exact ⟨rfl, rfl⟩

theorem C10_validated_strings_parse_witness :
    canonicalParse (normalize_schedule "MON,WED 7:00").data =
      some (["Mon".data, "Wed".data], 7, 0, false) ∧
    ((parse_schedule_string ⟨2026, 10, 12⟩
        (normalize_schedule "MON,WED 7:00")).type = "weekly_recurring" ∧
      (parse_schedule_string ⟨2026, 10, 12⟩
          (normalize_schedule "MON,WED 7:00")).pattern.days =
        (["Mon".data, "Wed".data] : List (List Char)).map
          (fun t => dayNameFromNumber ((DAYS_MAP.lookup (lowerStr t)).getD 0))) :=
  ⟨by decide,
    C10_validated_strings_parse ⟨2026, 10, 12⟩ "MON,WED 7:00"
      ["Mon".data, "Wed".data] 7 0 false (by decide)⟩

end EnjoyYoga
